import Mathlib

/-!
# WiCA core: shallow embedding and verification

This file embeds the core algorithms of the WiCA cellular-automaton simulator
in Lean 4 and proves (or refutes) the testable properties of its
specification.  The embedded components are:

* the rule-lookup prefix tree (`src/utils/trie.cpp` / `trie.h`);
* the trie branch of the rule engine's per-cell resolution and
  `RuleEngine::initialize` (`src/ca/rule_engine.cpp`);
* the sparse grid `CellSpace` (`src/ca/cell_space.cpp`);
* the Huffman codec (`src/file_io/huffman_coding.cpp`);
* the snapshot codec `SnapshotManager` (serialize / deserialize / loadState).

Machine integers are modelled as `Int` (for `int`/`int32_t` values flowing
through the CA) and `Nat` (for byte values and sizes); wrap-around is made
explicit with `% 2 ^ w` exactly where the C++ computes modulo `2 ^ w`.
C++ `std::map` / `std::unordered_map` objects are modelled as association
lists with assign/erase operations mirroring `operator[]` and `erase`;
`std::map` iteration order (ascending keys) is reproduced where the code
iterates a map.
-/

/-! ## Little-endian byte helpers

`toLEBytes k n` produces the `k` bytes `(n >> (i*8)) & 0xFF` for
`i = 0 .. k-1`, in order — the loop used by `HuffmanCoding::compress` and
`SnapshotManager::writeInt32`.  `readLEBytes` folds them back together the
way the `value |= byte << (i*8)` loops do. -/

def toLEBytes : Nat → Nat → List Nat
  | 0, _ => []
  | k + 1, n => (n % 256) :: toLEBytes k (n / 256)

def readLEBytes : List Nat → Nat
  | [] => 0
  | b :: rest => b + 256 * readLEBytes rest

theorem toLEBytes_length (k n : Nat) : (toLEBytes k n).length = k := by
  induction k generalizing n with
  | zero => rfl
  | succ k ih => simp [toLEBytes, ih]

theorem readLEBytes_toLEBytes (k n : Nat) :
    readLEBytes (toLEBytes k n) = n % 256 ^ k := by
  induction k generalizing n with
  | zero => simp [toLEBytes, readLEBytes, Nat.mod_one]
  | succ k ih =>
      simp only [toLEBytes, readLEBytes, ih]
      rw [pow_succ, mul_comm (256 ^ k) 256]
      have h1 : n % (256 * 256 ^ k) % 256 = n % 256 :=
        Nat.mod_mod_of_dvd n ⟨256 ^ k, rfl⟩
      have h2 : n % (256 * 256 ^ k) / 256 = n / 256 % 256 ^ k :=
        Nat.mod_mul_right_div_self n 256 (256 ^ k)
      have h3 := Nat.div_add_mod (n % (256 * 256 ^ k)) 256
      omega

theorem readLEBytes_toLEBytes_of_lt {k n : Nat} (h : n < 256 ^ k) :
    readLEBytes (toLEBytes k n) = n := by
  rw [readLEBytes_toLEBytes, Nat.mod_eq_of_lt h]

theorem toLEBytes_lt (k n : Nat) : ∀ b ∈ toLEBytes k n, b < 256 := by
  induction k generalizing n with
  | zero => simp [toLEBytes]
  | succ k ih =>
      intro b hb
      simp only [toLEBytes, List.mem_cons] at hb
      rcases hb with h | h
      · omega
      · exact ih _ b h

/-! ## Trie (`src/utils/trie.h`, `src/utils/trie.cpp`)

`TrieNode` carries a children map (`std::map<int, TrieNode*>`, modelled as an
association list with `operator[]`-style replace-or-append assignment), the
`isEndOfRule` flag and `nextStateIfEndOfRule`.  The sentinel `NO_RULE_FOUND`
is `-1` (`trie.h` line 9). -/

def NO_RULE_FOUND : Int := -1

inductive TrieNode where
  | mk (children : List (Int × TrieNode)) (isEndOfRule : Bool)
      (nextStateIfEndOfRule : Int)

/-- Fresh node, as built by the `TrieNode` constructor. -/
def TrieNode.empty : TrieNode := .mk [] false NO_RULE_FOUND

/-- `children.find(state)` on the association-list children map. -/
def childFind : List (Int × TrieNode) → Int → Option TrieNode
  | [], _ => none
  | (k, t) :: rest, s => if s = k then some t else childFind rest s

/-- `children[state] = node` (replace if present, append otherwise). -/
def childSet : List (Int × TrieNode) → Int → TrieNode → List (Int × TrieNode)
  | [], s, t => [(s, t)]
  | (k, u) :: rest, s, t =>
      if s = k then (s, t) :: rest else (k, u) :: childSet rest s t

/-- `Trie::insertRule` (trie.cpp lines 53-67): walk/create the path for
`rulePrefix`, then mark the final node with `resultState`. -/
def insertRule : TrieNode → List Int → Int → TrieNode
  | .mk cs _ _, [], resultState => .mk cs true resultState
  | .mk cs e nx, s :: rest, resultState =>
      let child := match childFind cs s with
        | some c => c
        | none => TrieNode.empty
      .mk (childSet cs s (insertRule child rest resultState)) e nx

/-- `Trie::findNextState` (trie.cpp lines 75-95): walk the path; return the
stored result only if the final node has `isEndOfRule`. -/
def findNextState : TrieNode → List Int → Int
  | .mk _ e nx, [] => if e then nx else NO_RULE_FOUND
  | .mk cs _ _, s :: rest =>
      match childFind cs s with
      | none => NO_RULE_FOUND
      | some c => findNextState c rest

/-- A `Trie` after a sequence of `insertRule` calls, starting from the fresh
root built by the `Trie` constructor. -/
def buildTrie (rules : List (List Int × Int)) : TrieNode :=
  rules.foldl (fun t r => insertRule t r.1 r.2) TrieNode.empty

theorem childFind_childSet_self (cs : List (Int × TrieNode)) (s : Int)
    (t : TrieNode) : childFind (childSet cs s t) s = some t := by
  induction cs with
  | nil => simp [childSet, childFind]
  | cons kv rest ih =>
      obtain ⟨k, u⟩ := kv
      by_cases h : s = k <;> simp [childSet, childFind, h, ih]

theorem childFind_childSet_ne (cs : List (Int × TrieNode)) (s s' : Int)
    (t : TrieNode) (h : s' ≠ s) :
    childFind (childSet cs s t) s' = childFind cs s' := by
  induction cs with
  | nil => simp [childSet, childFind, h]
  | cons kv rest ih =>
      obtain ⟨k, u⟩ := kv
      by_cases hk : s = k
      · subst hk
        simp [childSet, childFind, h, ih]
      · by_cases hk' : s' = k <;> simp [childSet, childFind, hk, hk', ih]

theorem findNextState_empty (q : List Int) :
    findNextState TrieNode.empty q = NO_RULE_FOUND := by
  cases q <;> simp [findNextState, TrieNode.empty, childFind]

/-- After `insertRule t p r`, looking up exactly `p` returns `r`. -/
theorem findNextState_insertRule_self (t : TrieNode) (p : List Int) (r : Int) :
    findNextState (insertRule t p r) p = r := by
  induction p generalizing t with
  | nil => obtain ⟨cs, e, nx⟩ := t; simp [insertRule, findNextState]
  | cons s rest ih =>
      obtain ⟨cs, e, nx⟩ := t
      simp [insertRule, findNextState, childFind_childSet_self, ih]

/-- `insertRule t p r` does not change the lookup of any other sequence. -/
theorem findNextState_insertRule_ne (t : TrieNode) (p q : List Int) (r : Int)
    (hne : q ≠ p) :
    findNextState (insertRule t p r) q = findNextState t q := by
  induction p generalizing t q with
  | nil =>
      obtain ⟨cs, e, nx⟩ := t
      cases q with
      | nil => exact absurd rfl hne
      | cons s' qr => simp [insertRule, findNextState]
  | cons s pr ih =>
      obtain ⟨cs, e, nx⟩ := t
      cases q with
      | nil => simp [insertRule, findNextState]
      | cons s' qr =>
          by_cases hs : s' = s
          · subst hs
            have hqr : qr ≠ pr := fun h => hne (by rw [h])
            simp only [insertRule, findNextState, childFind_childSet_self]
            cases hfind : childFind cs s' with
            | some c => simp [hfind, ih c qr hqr]
            | none =>
                simp only [hfind, ih _ qr hqr]
                exact findNextState_empty qr
          · simp [insertRule, findNextState,
              childFind_childSet_ne cs s s' _ hs]

/-- The result of the last `insertRule` call whose prefix is exactly `q`. -/
def lastMatch (q : List Int) : List (List Int × Int) → Option Int
  | [] => none
  | (p, r) :: rest =>
      match lastMatch q rest with
      | some v => some v
      | none => if p = q then some r else none

theorem findNextState_foldl (q : List Int) (rules : List (List Int × Int)) :
    ∀ t : TrieNode,
      findNextState (rules.foldl (fun t r => insertRule t r.1 r.2) t) q
        = (lastMatch q rules).getD (findNextState t q) := by
  induction rules with
  | nil => intro t; simp [lastMatch]
  | cons pr rest ih =>
      intro t
      obtain ⟨p, r⟩ := pr
      simp only [List.foldl_cons, ih, lastMatch]
      cases hl : lastMatch q rest with
      | some v => simp
      | none =>
          by_cases hpq : p = q
          · subst hpq
            simp [findNextState_insertRule_self]
          · simp [hpq, findNextState_insertRule_ne t p q r (fun h => hpq h.symm)]

theorem lastMatch_mem {q : List Int} {rules : List (List Int × Int)} {v : Int}
    (h : lastMatch q rules = some v) : (q, v) ∈ rules := by
  induction rules with
  | nil => simp [lastMatch] at h
  | cons pr rest ih =>
      obtain ⟨p, r⟩ := pr
      simp only [lastMatch] at h
      cases hl : lastMatch q rest with
      | some w =>
          rw [hl] at h
          injection h with h
          subst h
          exact List.mem_cons_of_mem _ (ih hl)
      | none =>
          rw [hl] at h
          by_cases hpq : p = q
          · subst hpq
            simp only [if_pos rfl] at h
            injection h with h
            subst h
            exact List.mem_cons_self _ _
          · simp [hpq] at h

theorem lastMatch_none {q : List Int} {rules : List (List Int × Int)}
    (h : lastMatch q rules = none) : ∀ v : Int, (q, v) ∉ rules := by
  induction rules with
  | nil => simp
  | cons pr rest ih =>
      obtain ⟨p, r⟩ := pr
      simp only [lastMatch] at h
      cases hl : lastMatch q rest with
      | some w => simp [hl] at h
      | none =>
          rw [hl] at h
          intro v hv
          rcases List.mem_cons.1 hv with heq | hmem
          · injection heq with h1 h2
            subst h1
            simp at h
          · exact ih hl v hmem

/-! ## Point (`src/utils/point.h`) and CellSpace (`src/ca/cell_space.cpp`)

`Point` is a pair of `int` coordinates with componentwise addition.
`CellSpace` stores the non-default cells (`std::unordered_map<Point,int>`,
modelled as an association list with `operator[]` assign and `erase`), the
default state, and the bounding box with its `boundsInitialized_` flag.
`INT_MAX` / `INT_MIN` are the 32-bit limits used by
`std::numeric_limits<int>`. -/

def INT_MAX : Int := 2147483647

def INT_MIN : Int := -2147483648

structure Point where
  x : Int
  y : Int
deriving DecidableEq

instance : Add Point := ⟨fun p q => ⟨p.x + q.x, p.y + q.y⟩⟩

structure CellSpace where
  activeCells : List (Point × Int)
  defaultState : Int
  minGridBounds : Point
  maxGridBounds : Point
  boundsInitialized : Bool
deriving DecidableEq

/-- The `CellSpace(int defState)` constructor. -/
def CellSpace.init (defState : Int) : CellSpace :=
  { activeCells := []
    defaultState := defState
    minGridBounds := ⟨INT_MAX, INT_MAX⟩
    maxGridBounds := ⟨INT_MIN, INT_MIN⟩
    boundsInitialized := false }

/-- `activeCells_.find(coordinates)`. -/
def cellFind : List (Point × Int) → Point → Option Int
  | [], _ => none
  | (q, v) :: rest, c => if c = q then some v else cellFind rest c

/-- `activeCells_[coordinates] = state` (replace if present, append
otherwise — `unordered_map` keys are unique). -/
def cellAssign : List (Point × Int) → Point → Int → List (Point × Int)
  | [], c, s => [(c, s)]
  | (q, v) :: rest, c, s =>
      if c = q then (c, s) :: rest else (q, v) :: cellAssign rest c s

/-- `activeCells_.erase(coordinates)`. -/
def cellErase : List (Point × Int) → Point → List (Point × Int)
  | [], _ => []
  | (q, v) :: rest, c => if c = q then rest else (q, v) :: cellErase rest c

/-- `CellSpace::updateBounds` (cell_space.cpp lines 20-31). -/
def updateBounds (cs : CellSpace) (c : Point) : CellSpace :=
  if cs.boundsInitialized then
    { cs with
      minGridBounds := ⟨min cs.minGridBounds.x c.x, min cs.minGridBounds.y c.y⟩
      maxGridBounds := ⟨max cs.maxGridBounds.x c.x, max cs.maxGridBounds.y c.y⟩ }
  else
    { cs with minGridBounds := c, maxGridBounds := c, boundsInitialized := true }

/-- `CellSpace::recalculateBounds` (cell_space.cpp lines 36-48): reset the
bounds, then fold `updateBounds` over the active cells. -/
def recalculateBounds (cs : CellSpace) : CellSpace :=
  let base := { cs with
    boundsInitialized := false
    minGridBounds := (⟨INT_MAX, INT_MAX⟩ : Point)
    maxGridBounds := (⟨INT_MIN, INT_MIN⟩ : Point) }
  if cs.activeCells = [] then base
  else cs.activeCells.foldl (fun acc pr => updateBounds acc pr.1) base

/-- `CellSpace::getCellState` (cell_space.cpp lines 56-62). -/
def getCellState (cs : CellSpace) (c : Point) : Int :=
  (cellFind cs.activeCells c).getD cs.defaultState

/-- `CellSpace::setCellState` (cell_space.cpp lines 69-89). -/
def setCellState (cs : CellSpace) (c : Point) (state : Int) : CellSpace :=
  let currentState := (cellFind cs.activeCells c).getD cs.defaultState
  if state = cs.defaultState then
    if currentState ≠ cs.defaultState then
      let cells2 := cellErase cs.activeCells c
      if cells2 = [] then
        { cs with
          activeCells := cells2
          boundsInitialized := false
          minGridBounds := ⟨INT_MAX, INT_MAX⟩
          maxGridBounds := ⟨INT_MIN, INT_MIN⟩ }
      else if cs.boundsInitialized ∧
          (c.x = cs.minGridBounds.x ∨ c.x = cs.maxGridBounds.x ∨
           c.y = cs.minGridBounds.y ∨ c.y = cs.maxGridBounds.y) then
        recalculateBounds { cs with activeCells := cells2 }
      else
        { cs with activeCells := cells2 }
    else cs
  else
    updateBounds { cs with activeCells := cellAssign cs.activeCells c state } c

/-- `CellSpace::getNeighborStates` (cell_space.cpp lines 97-105). -/
def getNeighborStates (cs : CellSpace) (centerCoordinates : Point)
    (neighborhoodDefinition : List Point) : List Int :=
  neighborhoodDefinition.map (fun offset =>
    getCellState cs (centerCoordinates + offset))

/-- `CellSpace::clear` (cell_space.cpp lines 201-206). -/
def CellSpace.clear (cs : CellSpace) : CellSpace :=
  { cs with
    activeCells := []
    boundsInitialized := false
    minGridBounds := ⟨INT_MAX, INT_MAX⟩
    maxGridBounds := ⟨INT_MIN, INT_MIN⟩ }

/-- `CellSpace::loadActiveCells` (cell_space.cpp lines 168-181). -/
def loadActiveCells (cs : CellSpace) (cells : List (Point × Int))
    (minB maxB : Point) : CellSpace :=
  if cells = [] then
    { cs with
      activeCells := cells
      boundsInitialized := false
      minGridBounds := ⟨INT_MAX, INT_MAX⟩
      maxGridBounds := ⟨INT_MIN, INT_MIN⟩ }
  else
    { cs with
      activeCells := cells
      minGridBounds := minB
      maxGridBounds := maxB
      boundsInitialized := true }

/-- `CellSpace::getMinBounds` (cell_space.cpp lines 183-188). -/
def getMinBounds (cs : CellSpace) : Point :=
  if cs.boundsInitialized then cs.minGridBounds else ⟨0, 0⟩

/-- `CellSpace::getMaxBounds` (cell_space.cpp lines 190-195). -/
def getMaxBounds (cs : CellSpace) : Point :=
  if cs.boundsInitialized then cs.maxGridBounds else ⟨0, 0⟩

/-- A grid state reachable by a sequence of `setCellState` calls on a freshly
constructed `CellSpace`. -/
def runSetCellStates (defState : Int) (ops : List (Point × Int)) : CellSpace :=
  ops.foldl (fun cs op => setCellState cs op.1 op.2) (CellSpace.init defState)

/-! ### CellSpace sparsity invariant (claim C6) -/

theorem cellAssign_mem {m : List (Point × Int)} {c : Point} {s : Int}
    {e : Point × Int} (h : e ∈ cellAssign m c s) : e ∈ m ∨ e = (c, s) := by
  induction m with
  | nil => simpa [cellAssign] using h
  | cons qv rest ih =>
      obtain ⟨q, v⟩ := qv
      by_cases hc : c = q
      · simp only [cellAssign, if_pos hc] at h
        rcases List.mem_cons.1 h with h | h
        · right; exact h
        · left; exact List.mem_cons_of_mem _ h
      · simp only [cellAssign, if_neg hc] at h
        rcases List.mem_cons.1 h with h | h
        · left; exact List.mem_cons.2 (Or.inl h)
        · rcases ih h with h | h
          · left; exact List.mem_cons_of_mem _ h
          · right; exact h

theorem cellErase_mem {m : List (Point × Int)} {c : Point}
    {e : Point × Int} (h : e ∈ cellErase m c) : e ∈ m := by
  induction m with
  | nil => simp [cellErase] at h
  | cons qv rest ih =>
      obtain ⟨q, v⟩ := qv
      by_cases hc : c = q
      · simp only [cellErase, if_pos hc] at h
        exact List.mem_cons_of_mem _ h
      · simp only [cellErase, if_neg hc] at h
        rcases List.mem_cons.1 h with h | h
        · exact List.mem_cons.2 (Or.inl h)
        · exact List.mem_cons_of_mem _ (ih h)

theorem cellFind_mem {m : List (Point × Int)} {c : Point} {v : Int}
    (h : cellFind m c = some v) : (c, v) ∈ m := by
  induction m with
  | nil => simp [cellFind] at h
  | cons qv rest ih =>
      obtain ⟨q, w⟩ := qv
      by_cases hc : c = q
      · simp only [cellFind, if_pos hc] at h
        injection h with h
        subst h hc
        exact List.mem_cons_self _ _
      · simp only [cellFind, if_neg hc] at h
        exact List.mem_cons_of_mem _ (ih h)

/-- The stored-cells invariant: no entry of `activeCells_` holds the default
state (and the default state is the one the grid was built with). -/
def CellsInv (defState : Int) (cs : CellSpace) : Prop :=
  cs.defaultState = defState ∧ ∀ e ∈ cs.activeCells, e.2 ≠ defState

theorem cellsInv_init (defState : Int) :
    CellsInv defState (CellSpace.init defState) := by
  refine ⟨rfl, ?_⟩
  intro e he
  simp [CellSpace.init] at he

theorem updateBounds_activeCells (cs : CellSpace) (c : Point) :
    (updateBounds cs c).activeCells = cs.activeCells := by
  by_cases h : cs.boundsInitialized <;> simp [updateBounds, h]

theorem updateBounds_defaultState (cs : CellSpace) (c : Point) :
    (updateBounds cs c).defaultState = cs.defaultState := by
  by_cases h : cs.boundsInitialized <;> simp [updateBounds, h]

theorem foldl_updateBounds_activeCells (L : List (Point × Int)) :
    ∀ cs : CellSpace,
      (L.foldl (fun acc pr => updateBounds acc pr.1) cs).activeCells
        = cs.activeCells := by
  induction L with
  | nil => intro cs; rfl
  | cons pr rest ih =>
      intro cs
      rw [List.foldl_cons, ih, updateBounds_activeCells]

theorem foldl_updateBounds_defaultState (L : List (Point × Int)) :
    ∀ cs : CellSpace,
      (L.foldl (fun acc pr => updateBounds acc pr.1) cs).defaultState
        = cs.defaultState := by
  induction L with
  | nil => intro cs; rfl
  | cons pr rest ih =>
      intro cs
      rw [List.foldl_cons, ih, updateBounds_defaultState]

theorem recalculateBounds_activeCells (cs : CellSpace) :
    (recalculateBounds cs).activeCells = cs.activeCells := by
  by_cases h : cs.activeCells = [] <;>
    simp [recalculateBounds, h, foldl_updateBounds_activeCells]

theorem recalculateBounds_defaultState (cs : CellSpace) :
    (recalculateBounds cs).defaultState = cs.defaultState := by
  by_cases h : cs.activeCells = [] <;>
    simp [recalculateBounds, h, foldl_updateBounds_defaultState]

theorem setCellState_defaultState (cs : CellSpace) (c : Point) (s : Int) :
    (setCellState cs c s).defaultState = cs.defaultState := by
  simp only [setCellState]
  split
  · split
    · split
      · rfl
      · split
        · rw [recalculateBounds_defaultState]
        · rfl
    · rfl
  · rw [updateBounds_defaultState]

theorem setCellState_mem {cs : CellSpace} {c : Point} {s : Int}
    {e : Point × Int} (h : e ∈ (setCellState cs c s).activeCells) :
    e ∈ cs.activeCells ∨ (e = (c, s) ∧ s ≠ cs.defaultState) := by
  revert h
  simp only [setCellState]
  split
  · rename_i hs
    split
    · split
      · rename_i hemp
        intro h
        simp only [hemp] at h
        simp at h
      · split
        · rw [recalculateBounds_activeCells]
          intro h
          exact Or.inl (cellErase_mem h)
        · intro h
          exact Or.inl (cellErase_mem h)
    · intro h
      exact Or.inl h
  · rename_i hs
    rw [updateBounds_activeCells]
    intro h
    rcases cellAssign_mem h with h | h
    · exact Or.inl h
    · exact Or.inr ⟨h, hs⟩

theorem cellsInv_setCellState {defState : Int} {cs : CellSpace}
    (hinv : CellsInv defState cs) (c : Point) (s : Int) :
    CellsInv defState (setCellState cs c s) := by
  obtain ⟨hdef, hvals⟩ := hinv
  refine ⟨by rw [setCellState_defaultState]; exact hdef, ?_⟩
  intro e he
  rcases setCellState_mem he with h | ⟨he2, hs⟩
  · exact hvals e h
  · rw [he2]
    rw [hdef] at hs
    exact hs

theorem cellsInv_runSetCellStates (defState : Int) (ops : List (Point × Int)) :
    CellsInv defState (runSetCellStates defState ops) := by
  unfold runSetCellStates
  induction ops using List.reverseRecOn with
  | nil => exact cellsInv_init defState
  | append_singleton ops op ih =>
      rw [List.foldl_append, List.foldl_cons, List.foldl_nil]
      exact cellsInv_setCellState ih op.1 op.2

/-! ## RuleEngine: trie-mode cell resolution (`src/ca/rule_engine.cpp`) -/

/-- The body of the `RuleEngine::calculateNextGeneration` evaluation loop for
one cell in trie mode (rule_engine.cpp lines 225-252): compute the current
state and the neighbor pattern, look the pattern up in the trie (lines
239-247; an answer of `NO_RULE_FOUND` keeps the current state), and emit the
update only if the next state differs (lines 249-251). -/
def trieCellUpdate (ruleTrie : TrieNode) (currentCellSpace : CellSpace)
    (neighborhoodDefinition : List Point) (cellCoord : Point) :
    Option (Point × Int) :=
  let currentCellState := getCellState currentCellSpace cellCoord
  let neighborStatesPattern :=
    getNeighborStates currentCellSpace cellCoord neighborhoodDefinition
  let nextStateFromRule := findNextState ruleTrie neighborStatesPattern
  let nextState :=
    if nextStateFromRule ≠ NO_RULE_FOUND then nextStateFromRule
    else currentCellState
  if nextState ≠ currentCellState then some (cellCoord, nextState) else none

/-! ## RuleEngine::initialize (`src/ca/rule_engine.cpp` lines 137-198)

The configuration record mirrors the fields of `Rule` that
`RuleEngine::initialize` reads; the outcome of `loadRuleLibrary` (dynamic
library loading, an external effect) is passed in as a boolean. -/

structure RuleData where
  isLoaded : Bool
  ruleMode : String
  neighborhood : List Point
  defaultState : Int
  stateUpdateRules : List (List Int)

structure RuleEngineState where
  currentRuleMode : String
  neighborhoodDefinition : List Point
  defaultState : Int
  ruleTrie : TrieNode
  dllLoaded : Bool
  initialized : Bool

/-- One iteration of the rule-loading loop in trie mode (rule_engine.cpp
lines 171-188): skip empty rows, skip rows whose length is not
`neighborhood.size() + 1`, otherwise insert (prefix = all but last element,
result = last element). -/
def insertRuleRow (n : Nat) (t : TrieNode) (ruleVector : List Int) : TrieNode :=
  if ruleVector = [] then t
  else if ruleVector.length ≠ n + 1 then t
  else insertRule t ruleVector.dropLast (ruleVector.getLastD 0)

/-- `RuleEngine::initialize` (rule_engine.cpp lines 137-198), acting on a
prior engine state exactly as the member function does: reset
`initialized_`, unload any library, bail out if the configuration is not
loaded, cache mode/neighborhood/default, then resolve the mode.  Returns
the C++ return value paired with the engine state. -/
def initEngine (prior : RuleEngineState) (config : RuleData)
    (dllLoadOk : Bool) : Bool × RuleEngineState :=
  let s0 := { prior with initialized := false, dllLoaded := false }
  if ¬config.isLoaded then (false, s0)
  else
    let s1 := { s0 with
      currentRuleMode := config.ruleMode
      neighborhoodDefinition := config.neighborhood
      defaultState := config.defaultState }
    if config.ruleMode = "dll" then
      if ¬dllLoadOk then (false, s1)
      else (true, { s1 with dllLoaded := true, ruleTrie := TrieNode.empty
                            initialized := true })
    else if config.ruleMode = "trie" then
      let trie := config.stateUpdateRules.foldl
        (insertRuleRow config.neighborhood.length) TrieNode.empty
      (true, { s1 with ruleTrie := trie, initialized := true })
    else (false, s1)

/-! ### Bounds behaviour of single-cell removal (claim C8) -/

/-- `mn`/`mx` tightly bound the coordinates of the stored cells: every cell
is inside, and each of the four bound coordinates is attained. -/
def TightBounds (L : List (Point × Int)) (mn mx : Point) : Prop :=
  (∀ e ∈ L, mn.x ≤ e.1.x ∧ e.1.x ≤ mx.x ∧ mn.y ≤ e.1.y ∧ e.1.y ≤ mx.y) ∧
  (∃ e ∈ L, e.1.x = mn.x) ∧ (∃ e ∈ L, e.1.x = mx.x) ∧
  (∃ e ∈ L, e.1.y = mn.y) ∧ (∃ e ∈ L, e.1.y = mx.y)

theorem updateBounds_of_init {cs : CellSpace} (h : cs.boundsInitialized = true)
    (c : Point) :
    updateBounds cs c = { cs with
      minGridBounds := ⟨min cs.minGridBounds.x c.x, min cs.minGridBounds.y c.y⟩
      maxGridBounds :=
        ⟨max cs.maxGridBounds.x c.x, max cs.maxGridBounds.y c.y⟩ } := by
  simp [updateBounds, h]

theorem foldl_updateBounds_init (L : List (Point × Int)) :
    ∀ cs : CellSpace, cs.boundsInitialized = true →
      (L.foldl (fun a pr => updateBounds a pr.1) cs).boundsInitialized
        = true := by
  induction L with
  | nil => intro cs h; exact h
  | cons pr rest ih =>
      intro cs h
      rw [List.foldl_cons, updateBounds_of_init h]
      exact ih _ h

theorem foldl_updateBounds_mono (L : List (Point × Int)) :
    ∀ cs : CellSpace, cs.boundsInitialized = true →
      (L.foldl (fun a pr => updateBounds a pr.1) cs).minGridBounds.x
          ≤ cs.minGridBounds.x ∧
      (L.foldl (fun a pr => updateBounds a pr.1) cs).minGridBounds.y
          ≤ cs.minGridBounds.y ∧
      cs.maxGridBounds.x
          ≤ (L.foldl (fun a pr => updateBounds a pr.1) cs).maxGridBounds.x ∧
      cs.maxGridBounds.y
          ≤ (L.foldl (fun a pr => updateBounds a pr.1) cs).maxGridBounds.y := by
  induction L with
  | nil => intro cs h; exact ⟨le_refl _, le_refl _, le_refl _, le_refl _⟩
  | cons pr rest ih =>
      intro cs h
      rw [List.foldl_cons, updateBounds_of_init h]
      have := ih { cs with
        minGridBounds :=
          ⟨min cs.minGridBounds.x pr.1.x, min cs.minGridBounds.y pr.1.y⟩
        maxGridBounds :=
          ⟨max cs.maxGridBounds.x pr.1.x, max cs.maxGridBounds.y pr.1.y⟩ } h
      simp only at this
      obtain ⟨h1, h2, h3, h4⟩ := this
      refine ⟨?_, ?_, ?_, ?_⟩
      · exact le_trans h1 (min_le_left _ _)
      · exact le_trans h2 (min_le_left _ _)
      · exact le_trans (le_max_left _ _) h3
      · exact le_trans (le_max_left _ _) h4

theorem foldl_updateBounds_covers (L : List (Point × Int)) :
    ∀ cs : CellSpace, cs.boundsInitialized = true →
      ∀ e ∈ L,
        (L.foldl (fun a pr => updateBounds a pr.1) cs).minGridBounds.x
            ≤ e.1.x ∧
        e.1.x ≤ (L.foldl (fun a pr => updateBounds a pr.1) cs).maxGridBounds.x ∧
        (L.foldl (fun a pr => updateBounds a pr.1) cs).minGridBounds.y
            ≤ e.1.y ∧
        e.1.y ≤ (L.foldl (fun a pr => updateBounds a pr.1) cs).maxGridBounds.y
    := by
  induction L with
  | nil => intro cs h e he; simp at he
  | cons pr rest ih =>
      intro cs h e he
      rw [List.foldl_cons, updateBounds_of_init h]
      set cs' : CellSpace := { cs with
        minGridBounds :=
          ⟨min cs.minGridBounds.x pr.1.x, min cs.minGridBounds.y pr.1.y⟩
        maxGridBounds :=
          ⟨max cs.maxGridBounds.x pr.1.x, max cs.maxGridBounds.y pr.1.y⟩ }
        with hcs'
      have hinit' : cs'.boundsInitialized = true := h
      rcases List.mem_cons.1 he with he | he
      · subst he
        have hm := foldl_updateBounds_mono rest cs' hinit'
        obtain ⟨h1, h2, h3, h4⟩ := hm
        have e1 : cs'.minGridBounds.x ≤ e.1.x := by
          rw [hcs']; exact min_le_right _ _
        have e2 : e.1.x ≤ cs'.maxGridBounds.x := by
          rw [hcs']; exact le_max_right _ _
        have e3 : cs'.minGridBounds.y ≤ e.1.y := by
          rw [hcs']; exact min_le_right _ _
        have e4 : e.1.y ≤ cs'.maxGridBounds.y := by
          rw [hcs']; exact le_max_right _ _
        exact ⟨le_trans h1 e1, le_trans e2 h3, le_trans h2 e3, le_trans e4 h4⟩
      · exact ih cs' hinit' e he

theorem foldl_updateBounds_attained (L : List (Point × Int)) :
    ∀ cs : CellSpace, cs.boundsInitialized = true →
      ((L.foldl (fun a pr => updateBounds a pr.1) cs).minGridBounds.x
          = cs.minGridBounds.x ∨
        ∃ e ∈ L, (L.foldl (fun a pr => updateBounds a pr.1) cs).minGridBounds.x
          = e.1.x) ∧
      ((L.foldl (fun a pr => updateBounds a pr.1) cs).maxGridBounds.x
          = cs.maxGridBounds.x ∨
        ∃ e ∈ L, (L.foldl (fun a pr => updateBounds a pr.1) cs).maxGridBounds.x
          = e.1.x) ∧
      ((L.foldl (fun a pr => updateBounds a pr.1) cs).minGridBounds.y
          = cs.minGridBounds.y ∨
        ∃ e ∈ L, (L.foldl (fun a pr => updateBounds a pr.1) cs).minGridBounds.y
          = e.1.y) ∧
      ((L.foldl (fun a pr => updateBounds a pr.1) cs).maxGridBounds.y
          = cs.maxGridBounds.y ∨
        ∃ e ∈ L, (L.foldl (fun a pr => updateBounds a pr.1) cs).maxGridBounds.y
          = e.1.y) := by
  induction L with
  | nil =>
      intro cs h
      exact ⟨Or.inl rfl, Or.inl rfl, Or.inl rfl, Or.inl rfl⟩
  | cons pr rest ih =>
      intro cs h
      rw [List.foldl_cons, updateBounds_of_init h]
      set cs' : CellSpace := { cs with
        minGridBounds :=
          ⟨min cs.minGridBounds.x pr.1.x, min cs.minGridBounds.y pr.1.y⟩
        maxGridBounds :=
          ⟨max cs.maxGridBounds.x pr.1.x, max cs.maxGridBounds.y pr.1.y⟩ }
        with hcs'
      have hinit' : cs'.boundsInitialized = true := h
      obtain ⟨h1, h2, h3, h4⟩ := ih cs' hinit'
      refine ⟨?_, ?_, ?_, ?_⟩
      · rcases h1 with h1 | ⟨e, he, h1⟩
        · rw [h1, hcs']
          simp only
          rcases min_cases cs.minGridBounds.x pr.1.x with ⟨hm, _⟩ | ⟨hm, _⟩
          · exact Or.inl hm
          · exact Or.inr ⟨pr, List.mem_cons_self _ _, hm⟩
        · exact Or.inr ⟨e, List.mem_cons_of_mem _ he, h1⟩
      · rcases h2 with h2 | ⟨e, he, h2⟩
        · rw [h2, hcs']
          simp only
          rcases max_cases cs.maxGridBounds.x pr.1.x with ⟨hm, _⟩ | ⟨hm, _⟩
          · exact Or.inl hm
          · exact Or.inr ⟨pr, List.mem_cons_self _ _, hm⟩
        · exact Or.inr ⟨e, List.mem_cons_of_mem _ he, h2⟩
      · rcases h3 with h3 | ⟨e, he, h3⟩
        · rw [h3, hcs']
          simp only
          rcases min_cases cs.minGridBounds.y pr.1.y with ⟨hm, _⟩ | ⟨hm, _⟩
          · exact Or.inl hm
          · exact Or.inr ⟨pr, List.mem_cons_self _ _, hm⟩
        · exact Or.inr ⟨e, List.mem_cons_of_mem _ he, h3⟩
      · rcases h4 with h4 | ⟨e, he, h4⟩
        · rw [h4, hcs']
          simp only
          rcases max_cases cs.maxGridBounds.y pr.1.y with ⟨hm, _⟩ | ⟨hm, _⟩
          · exact Or.inl hm
          · exact Or.inr ⟨pr, List.mem_cons_self _ _, hm⟩
        · exact Or.inr ⟨e, List.mem_cons_of_mem _ he, h4⟩

/-- `recalculateBounds` on a grid with at least one stored cell produces
tight bounds over the stored cells (and leaves the cells themselves
untouched). -/
theorem recalculateBounds_tight (cs : CellSpace)
    (hne : cs.activeCells ≠ []) :
    TightBounds cs.activeCells (recalculateBounds cs).minGridBounds
      (recalculateBounds cs).maxGridBounds ∧
    (recalculateBounds cs).boundsInitialized = true := by
  obtain ⟨p0, rest, hL⟩ : ∃ p0 rest, cs.activeCells = p0 :: rest := by
    cases hcs : cs.activeCells with
    | nil => exact absurd hcs hne
    | cons a b => exact ⟨a, b, rfl⟩
  unfold recalculateBounds
  rw [if_neg hne, hL, List.foldl_cons]
  have hb0 : updateBounds
      { cs with
        activeCells := p0 :: rest
        boundsInitialized := false
        minGridBounds := (⟨INT_MAX, INT_MAX⟩ : Point)
        maxGridBounds := (⟨INT_MIN, INT_MIN⟩ : Point) } p0.1
      = { cs with
        activeCells := p0 :: rest
        minGridBounds := p0.1
        maxGridBounds := p0.1
        boundsInitialized := true } := by
    simp [updateBounds]
  rw [hb0]
  set start : CellSpace := { cs with
      activeCells := p0 :: rest
      minGridBounds := p0.1
      maxGridBounds := p0.1
      boundsInitialized := true } with hstart
  have hinit : start.boundsInitialized = true := rfl
  have hmono := foldl_updateBounds_mono rest start hinit
  have hcov := foldl_updateBounds_covers rest start hinit
  have hatt := foldl_updateBounds_attained rest start hinit
  obtain ⟨m1, m2, m3, m4⟩ := hmono
  obtain ⟨a1, a2, a3, a4⟩ := hatt
  refine ⟨⟨?_, ?_, ?_, ?_, ?_⟩, foldl_updateBounds_init rest start hinit⟩
  · intro e he
    rcases List.mem_cons.1 he with he | he
    · subst he
      refine ⟨?_, ?_, ?_, ?_⟩
      · exact le_trans m1 (le_refl _)
      · exact le_trans (le_refl _) m3
      · exact le_trans m2 (le_refl _)
      · exact le_trans (le_refl _) m4
    · exact hcov e he
  · rcases a1 with h | ⟨e, he, h⟩
    · exact ⟨p0, List.mem_cons_self _ _, h.symm⟩
    · exact ⟨e, List.mem_cons_of_mem _ he, h.symm⟩
  · rcases a2 with h | ⟨e, he, h⟩
    · exact ⟨p0, List.mem_cons_self _ _, h.symm⟩
    · exact ⟨e, List.mem_cons_of_mem _ he, h.symm⟩
  · rcases a3 with h | ⟨e, he, h⟩
    · exact ⟨p0, List.mem_cons_self _ _, h.symm⟩
    · exact ⟨e, List.mem_cons_of_mem _ he, h.symm⟩
  · rcases a4 with h | ⟨e, he, h⟩
    · exact ⟨p0, List.mem_cons_self _ _, h.symm⟩
    · exact ⟨e, List.mem_cons_of_mem _ he, h.symm⟩

/-! ### Rule rows actually inserted by `RuleEngine::initialize` -/

theorem foldl_insertRuleRow (n : Nat) (rules : List (List Int)) :
    ∀ t : TrieNode,
      rules.foldl (insertRuleRow n) t
        = (rules.filter (fun r => r.length == n + 1)).foldl
            (fun t r => insertRule t r.dropLast (r.getLastD 0)) t := by
  induction rules with
  | nil => intro t; rfl
  | cons row rest ih =>
      intro t
      by_cases hlen : row.length = n + 1
      · have hne : row ≠ [] := by
          intro h
          rw [h] at hlen
          simp at hlen
        rw [List.foldl_cons]
        have hfilter : (row :: rest).filter (fun r => r.length == n + 1)
            = row :: rest.filter (fun r => r.length == n + 1) := by
          simp [List.filter_cons, hlen]
        rw [hfilter, List.foldl_cons, ih]
        congr 1
        simp [insertRuleRow, hne, hlen]
      · have hfilter : (row :: rest).filter (fun r => r.length == n + 1)
            = rest.filter (fun r => r.length == n + 1) := by
          simp [List.filter_cons, hlen]
        rw [List.foldl_cons, hfilter, ih]
        congr 1
        by_cases hne : row = [] <;> simp [insertRuleRow, hne, hlen]

/-! ### Claim theorems: trie and rule engine -/

/-- C7, counterexample: with the single call `insertRule([0], -1)`, the rule
was inserted with exactly the sequence `[0]`, yet `findNextState([0])`
returns the sentinel `NO_RULE_FOUND` — the claimed "value iff inserted"
equivalence fails when a rule's result state is `-1`. -/
theorem claim_C7_counterexample :
    (([0], -1) : List Int × Int) ∈ [(([0], -1) : List Int × Int)] ∧
    findNextState (buildTrie [(([0], -1) : List Int × Int)]) [0]
      = NO_RULE_FOUND := by
  constructor
  · exact List.mem_cons_self _ _
  · decide

/-- C7 (amended): provided no inserted rule's result state equals the
sentinel `NO_RULE_FOUND = -1`, `Trie::findNextState(seq)` returns a
non-sentinel value iff `insertRule` was called with exactly the sequence
`seq`; in particular a strict prefix of an inserted sequence, or a sequence
whose path does not exist, returns `NO_RULE_FOUND`. -/
theorem claim_C7_amended (rules : List (List Int × Int)) (seq : List Int)
    (hres : ∀ pr ∈ rules, pr.2 ≠ NO_RULE_FOUND) :
    findNextState (buildTrie rules) seq ≠ NO_RULE_FOUND ↔
      ∃ r : Int, (seq, r) ∈ rules := by
  unfold buildTrie
  rw [findNextState_foldl]
  cases hl : lastMatch seq rules with
  | some v =>
      simp only [Option.getD_some]
      constructor
      · intro _
        exact ⟨v, lastMatch_mem hl⟩
      · intro _
        exact hres _ (lastMatch_mem hl)
  | none =>
      simp only [Option.getD_none, findNextState_empty]
      constructor
      · intro h
        exact absurd rfl h
      · intro ⟨r, hr⟩
        exact absurd hr (lastMatch_none hl r)

theorem claim_C7_amended_witness :
    (∀ pr ∈ [(([1, 2], 5) : List Int × Int), (([1], 3) : List Int × Int)],
        pr.2 ≠ NO_RULE_FOUND) ∧
    (findNextState
        (buildTrie [(([1, 2], 5) : List Int × Int), (([1], 3) : List Int × Int)])
        [1, 2] ≠ NO_RULE_FOUND ↔
      ∃ r : Int,
        (([1, 2] : List Int), r)
          ∈ [(([1, 2], 5) : List Int × Int), (([1], 3) : List Int × Int)]) :=
  ⟨by decide, claim_C7_amended _ [1, 2] (by decide)⟩

/-- C10: the sentinel `NO_RULE_FOUND` equals `-1`, so a rule inserted with
result state `-1` is indistinguishable from no rule matching: looking up its
exact pattern returns `NO_RULE_FOUND`, and the trie branch of
`RuleEngine::calculateNextGeneration` then emits no update for a cell whose
neighbor pattern is exactly that rule's pattern (the cell's state is left
unchanged even though a matching rule with an explicit result exists). -/
theorem claim_C10 (t : TrieNode) (cs : CellSpace) (neigh : List Point)
    (p : Point) :
    NO_RULE_FOUND = -1 ∧
    findNextState (insertRule t (getNeighborStates cs p neigh) (-1))
        (getNeighborStates cs p neigh) = NO_RULE_FOUND ∧
    trieCellUpdate (insertRule t (getNeighborStates cs p neigh) (-1))
        cs neigh p = none := by
  refine ⟨rfl, ?_, ?_⟩
  · rw [findNextState_insertRule_self]
    rfl
  · simp only [trieCellUpdate, findNextState_insertRule_self]
    simp [NO_RULE_FOUND]

/-- C6: after any sequence of `setCellState` calls on a fresh grid, a
coordinate is a key of the active-cell map iff its `getCellState` differs
from the default state (no stored cell ever holds the default state). -/
theorem claim_C6 (defState : Int) (ops : List (Point × Int)) (p : Point) :
    (cellFind (runSetCellStates defState ops).activeCells p).isSome = true ↔
      getCellState (runSetCellStates defState ops) p ≠ defState := by
  obtain ⟨hdef, hvals⟩ := cellsInv_runSetCellStates defState ops
  unfold getCellState
  cases hfind : cellFind (runSetCellStates defState ops).activeCells p with
  | none =>
      simp only [Option.isSome_none, Option.getD_none, hdef]
      constructor
      · intro h
        exact absurd h (by simp)
      · intro h
        exact absurd rfl h
  | some v =>
      have hv : v ≠ defState := hvals (p, v) (cellFind_mem hfind)
      simp only [Option.isSome_some, Option.getD_some]
      constructor
      · intro _
        exact hv
      · intro _
        trivial

/-- C8, counterexample: on the grid built by `setCellState((0,0),1)` then
`setCellState((1,0),1)` (bounds `(0,0)-(1,0)`), the single-cell removal
`setCellState((1,0),0)` shrinks `maxBounds` from `(1,0)` to `(0,0)` while
another active cell remains — single-cell removal does eagerly shrink
bounds. -/
theorem claim_C8_counterexample :
    (runSetCellStates 0 [(⟨0, 0⟩, 1), (⟨1, 0⟩, 1)]).maxGridBounds
        = (⟨1, 0⟩ : Point) ∧
    (runSetCellStates 0 [(⟨0, 0⟩, 1), (⟨1, 0⟩, 1), (⟨1, 0⟩, 0)]).activeCells
        ≠ [] ∧
    (runSetCellStates 0 [(⟨0, 0⟩, 1), (⟨1, 0⟩, 1), (⟨1, 0⟩, 0)]).maxGridBounds
        = (⟨0, 0⟩ : Point) := by
  refine ⟨?_, ?_, ?_⟩ <;> decide

/-- C8 (amended): a single-cell removal via `setCellState` removes the cell
and, when the removed cell lay on the bounding-box edge, eagerly recomputes
the bounds to tightly fit the remaining cells (so bounds can shrink on a
single-cell removal); when the removed cell lay strictly inside the
bounding box, the bounds are left unchanged. -/
theorem claim_C8_amended (cs : CellSpace) (c : Point)
    (hcur : getCellState cs c ≠ cs.defaultState)
    (hrem : cellErase cs.activeCells c ≠ [])
    (hinit : cs.boundsInitialized = true) :
    (setCellState cs c cs.defaultState).activeCells
        = cellErase cs.activeCells c ∧
    ((c.x = cs.minGridBounds.x ∨ c.x = cs.maxGridBounds.x ∨
      c.y = cs.minGridBounds.y ∨ c.y = cs.maxGridBounds.y) →
        TightBounds (cellErase cs.activeCells c)
          (setCellState cs c cs.defaultState).minGridBounds
          (setCellState cs c cs.defaultState).maxGridBounds ∧
        (setCellState cs c cs.defaultState).boundsInitialized = true) ∧
    (¬(c.x = cs.minGridBounds.x ∨ c.x = cs.maxGridBounds.x ∨
       c.y = cs.minGridBounds.y ∨ c.y = cs.maxGridBounds.y) →
        (setCellState cs c cs.defaultState).minGridBounds = cs.minGridBounds ∧
        (setCellState cs c cs.defaultState).maxGridBounds
          = cs.maxGridBounds) := by
  have hset : setCellState cs c cs.defaultState
      = if c.x = cs.minGridBounds.x ∨ c.x = cs.maxGridBounds.x ∨
           c.y = cs.minGridBounds.y ∨ c.y = cs.maxGridBounds.y then
          recalculateBounds { cs with activeCells := cellErase cs.activeCells c }
        else { cs with activeCells := cellErase cs.activeCells c } := by
    have hcur2 : (cellFind cs.activeCells c).getD cs.defaultState
        ≠ cs.defaultState := hcur
    simp only [setCellState]
    rw [if_pos trivial, if_pos hcur2, if_neg hrem]
    by_cases hb : c.x = cs.minGridBounds.x ∨ c.x = cs.maxGridBounds.x ∨
        c.y = cs.minGridBounds.y ∨ c.y = cs.maxGridBounds.y
    · rw [if_pos ⟨hinit, hb⟩, if_pos hb]
    · rw [if_neg ?_, if_neg hb]
      intro ⟨_, hc⟩
      exact hb hc
  by_cases hb : c.x = cs.minGridBounds.x ∨ c.x = cs.maxGridBounds.x ∨
      c.y = cs.minGridBounds.y ∨ c.y = cs.maxGridBounds.y
  · rw [hset, if_pos hb]
    have htight := recalculateBounds_tight
      { cs with activeCells := cellErase cs.activeCells c } hrem
    refine ⟨recalculateBounds_activeCells _, fun _ => ⟨htight.1, htight.2⟩,
      fun hnb => absurd hb hnb⟩
  · rw [hset, if_neg hb]
    exact ⟨rfl, fun hbb => absurd hbb hb, fun _ => ⟨rfl, rfl⟩⟩

theorem claim_C8_amended_witness :
    (getCellState (runSetCellStates 0 [(⟨0, 0⟩, 1), (⟨1, 0⟩, 1)]) ⟨1, 0⟩
        ≠ (runSetCellStates 0 [(⟨0, 0⟩, 1), (⟨1, 0⟩, 1)]).defaultState) ∧
    (cellErase (runSetCellStates 0 [(⟨0, 0⟩, 1), (⟨1, 0⟩, 1)]).activeCells
        ⟨1, 0⟩ ≠ []) ∧
    ((runSetCellStates 0 [(⟨0, 0⟩, 1), (⟨1, 0⟩, 1)]).boundsInitialized
        = true) ∧
    (setCellState (runSetCellStates 0 [(⟨0, 0⟩, 1), (⟨1, 0⟩, 1)]) ⟨1, 0⟩
        (runSetCellStates 0 [(⟨0, 0⟩, 1), (⟨1, 0⟩, 1)]).defaultState).activeCells
      = cellErase (runSetCellStates 0 [(⟨0, 0⟩, 1), (⟨1, 0⟩, 1)]).activeCells
          ⟨1, 0⟩ :=
  ⟨by decide, by decide, by decide,
    (claim_C8_amended (runSetCellStates 0 [(⟨0, 0⟩, 1), (⟨1, 0⟩, 1)]) ⟨1, 0⟩
      (by decide) (by decide) (by decide)).1⟩

/-- C4, counterexample: with a loaded trie-mode configuration whose single
rule row `[1,2,3]` has length 3 ≠ neighborhood size + 1 = 2,
`RuleEngine::initialize` still returns `true` and sets `initialized` — a
mismatched row is skipped, not a hard initialization failure. -/
theorem claim_C4_counterexample :
    ((([1, 2, 3] : List Int).length
        ≠ ([(⟨0, 0⟩ : Point)]).length + 1) ∧
    (initEngine ⟨"trie", [], 0, TrieNode.empty, false, false⟩
        ⟨true, "trie", [⟨0, 0⟩], 0, [[1, 2, 3]]⟩ true).1 = true ∧
    (initEngine ⟨"trie", [], 0, TrieNode.empty, false, false⟩
        ⟨true, "trie", [⟨0, 0⟩], 0, [[1, 2, 3]]⟩ true).2.initialized
      = true) := by
  refine ⟨by decide, ?_, ?_⟩ <;> rfl

/-- C4 (amended): `RuleEngine::initialize` in trie mode never fails on a
loaded configuration: it returns `true` and sets `initialized = true`
regardless of the rule rows; rows whose length differs from
neighborhood size + 1 (including empty rows) are skipped rather than
causing a failure, and no declared-valid-states check is performed — only
the correctly sized rows are inserted into the trie.  (The hard row-length
and valid-state validation lives in the configuration loader
`Rule::loadFromFile`, whose failure `initialize` propagates through its
`config.isLoaded()` check.) -/
theorem claim_C4_amended (prior : RuleEngineState) (config : RuleData)
    (dllLoadOk : Bool) (hload : config.isLoaded = true)
    (hmode : config.ruleMode = "trie") :
    (initEngine prior config dllLoadOk).1 = true ∧
    (initEngine prior config dllLoadOk).2.initialized = true ∧
    (initEngine prior config dllLoadOk).2.ruleTrie
      = (config.stateUpdateRules.filter
          (fun r => r.length == config.neighborhood.length + 1)).foldl
          (fun t r => insertRule t r.dropLast (r.getLastD 0))
          TrieNode.empty := by
  simp [initEngine, hload, hmode, foldl_insertRuleRow]

theorem claim_C4_amended_witness :
    ((⟨true, "trie", [⟨0, 0⟩], 0, [[1, 2, 3], [1, 2]]⟩ : RuleData).isLoaded
        = true) ∧
    ((⟨true, "trie", [⟨0, 0⟩], 0, [[1, 2, 3], [1, 2]]⟩ : RuleData).ruleMode
        = "trie") ∧
    ((initEngine ⟨"trie", [], 0, TrieNode.empty, false, false⟩
        ⟨true, "trie", [⟨0, 0⟩], 0, [[1, 2, 3], [1, 2]]⟩ true).1 = true ∧
     (initEngine ⟨"trie", [], 0, TrieNode.empty, false, false⟩
        ⟨true, "trie", [⟨0, 0⟩], 0, [[1, 2, 3], [1, 2]]⟩ true).2.initialized
        = true ∧
     (initEngine ⟨"trie", [], 0, TrieNode.empty, false, false⟩
        ⟨true, "trie", [⟨0, 0⟩], 0, [[1, 2, 3], [1, 2]]⟩
        true).2.ruleTrie
       = (((⟨true, "trie", [⟨0, 0⟩], 0, [[1, 2, 3], [1, 2]]⟩ :
            RuleData)).stateUpdateRules.filter
            (fun r => r.length ==
              ((⟨true, "trie", [⟨0, 0⟩], 0, [[1, 2, 3], [1, 2]]⟩ :
                RuleData)).neighborhood.length + 1)).foldl
            (fun t r => insertRule t r.dropLast (r.getLastD 0))
            TrieNode.empty) :=
  ⟨rfl, rfl, claim_C4_amended _ _ true rfl rfl⟩

/-! ## Evaluation-frontier CellSpace (claim C2)

The repository's header `CellSpace` variant with the evaluation frontier
declares `cellsToEvaluate_` together with `setCellState`, `updateCells` and
`getCellsToEvaluate`, but the member-function implementation maintaining the
frontier is not among the provided sources (the `cell_space.cpp` present
implements the frontier-less variant).  The frontier behaviour is therefore
modelled from the specification. -/

/-- `std::unordered_set<Point>::insert`: add if absent. -/
def setInsert (l : List Point) (p : Point) : List Point :=
  if p ∈ l then l else l ++ [p]

/-- Modelled from the spec: the influence set — "the set of all offsets
reachable by composing two neighborhood steps (`{a+b | a,b ∈ neighborhood}`),
deduplicated" (spec §3); the implementation computing it
(`reverseNeighborhood_`) is missing from the sources. -/
def influenceOf (neighborhood : List Point) : List Point :=
  (neighborhood.flatMap (fun a => neighborhood.map (fun b => a + b))).foldl
    setInsert []

/-- Modelled from the spec: the frontier-bearing `CellSpace` state declared
in the header (`nonDefaultCells_`, `cellsToEvaluate_`, bounds, neighborhood
and influence set); its member-function implementation is missing from the
sources. -/
structure FCellSpace where
  nonDefaultCells : List (Point × Int)
  cellsToEvaluate : List Point
  defaultState : Int
  neighborhood : List Point
  influenceSet : List Point
  minBounds : Point
  maxBounds : Point
  boundsValid : Bool

/-- Modelled from the spec: grid construction with
`(defaultState, neighborhood)` (spec §3 lifecycle). -/
def FCellSpace.make (defState : Int) (neighborhood : List Point) :
    FCellSpace :=
  { nonDefaultCells := []
    cellsToEvaluate := []
    defaultState := defState
    neighborhood := neighborhood
    influenceSet := influenceOf neighborhood
    minBounds := ⟨0, 0⟩
    maxBounds := ⟨0, 0⟩
    boundsValid := false }

/-- `getState(p)`: `cells[p]` or `defaultState` (spec §4.1). -/
def FCellSpace.getState (g : FCellSpace) (p : Point) : Int :=
  (cellFind g.nonDefaultCells p).getD g.defaultState

/-- Modelled from the spec: add `p` and every `p + offset` for
`offset ∈ influenceSet` to the evaluation frontier (spec §4.1
`setCellState`). -/
def FCellSpace.addToFrontier (g : FCellSpace) (p : Point) : FCellSpace :=
  let fr := (g.influenceSet.map (fun offset => p + offset)).foldl setInsert
    (setInsert g.cellsToEvaluate p)
  { g with cellsToEvaluate := fr }

/-- Modelled from the spec: expand-only bounds update on insertion
(spec §4.1 `setCellState`). -/
def FCellSpace.expandBounds (g : FCellSpace) (p : Point) : FCellSpace :=
  if g.boundsValid then
    { g with
      minBounds := ⟨min g.minBounds.x p.x, min g.minBounds.y p.y⟩
      maxBounds := ⟨max g.maxBounds.x p.x, max g.maxBounds.y p.y⟩ }
  else
    { g with minBounds := p, maxBounds := p, boundsValid := true }

/-- Modelled from the spec: `setCellState(p, state)` of the frontier-bearing
grid — "if `state == defaultState`, remove `p` from `cells` if present; else
insert/update.  If the resulting state differs from the prior state, add `p`
and every `p + offset` for `offset ∈ influenceSet` to `evaluationFrontier`.
Updates bounds incrementally on insertion" (spec §4.1). -/
def FCellSpace.setCell (g : FCellSpace) (p : Point) (state : Int) :
    FCellSpace :=
  let prior := g.getState p
  let g1 :=
    if state = g.defaultState then
      { g with nonDefaultCells := cellErase g.nonDefaultCells p }
    else
      ({ g with
          nonDefaultCells := cellAssign g.nonDefaultCells p state
        } : FCellSpace).expandBounds p
  if state ≠ prior then g1.addToFrontier p else g1

/-- Modelled from the spec: `applyChanges(updates)` — "clears
`evaluationFrontier`; for each `(p, newState)` pair calls `setCellState`
(which repopulates the frontier); if `cells` becomes empty, invalidates
bounds" (spec §4.1). -/
def FCellSpace.applyChanges (g : FCellSpace) (updates : List (Point × Int)) :
    FCellSpace :=
  let g0 : FCellSpace := { g with cellsToEvaluate := [] }
  let g1 : FCellSpace := updates.foldl (fun acc u => acc.setCell u.1 u.2) g0
  if g1.nonDefaultCells = [] then { g1 with boundsValid := false } else g1

theorem setInsert_mem (l : List Point) (x q : Point) :
    q ∈ setInsert l x ↔ q ∈ l ∨ q = x := by
  unfold setInsert
  by_cases h : x ∈ l
  · simp only [if_pos h]
    constructor
    · exact Or.inl
    · intro hq
      rcases hq with hq | hq
      · exact hq
      · rw [hq]; exact h
  · simp [if_neg h, List.mem_append]

theorem foldl_setInsert_mem (L : List Point) :
    ∀ (init : List Point) (q : Point),
      q ∈ L.foldl setInsert init ↔ q ∈ init ∨ q ∈ L := by
  induction L with
  | nil => intro init q; simp
  | cons x rest ih =>
      intro init q
      rw [List.foldl_cons, ih, setInsert_mem]
      constructor
      · intro h
        rcases h with (h | h) | h
        · exact Or.inl h
        · exact Or.inr (by rw [h]; exact List.mem_cons_self _ _)
        · exact Or.inr (List.mem_cons_of_mem _ h)
      · intro h
        rcases h with h | h
        · exact Or.inl (Or.inl h)
        · rcases List.mem_cons.1 h with h | h
          · exact Or.inl (Or.inr h)
          · exact Or.inr h

/-- C2 (spec-modelled): after `applyChanges({p: s})` with
`s ≠ getState(p)`, the evaluation frontier contains a coordinate `q` iff
`q = p` or `q = p + offset` for some `offset` in the influence set — the
frontier is cleared at the start of the call and repopulated exactly from
the coordinates touched by this single change. -/
theorem claim_C2 (g : FCellSpace) (p : Point) (s : Int) (q : Point)
    (h : s ≠ g.getState p) :
    q ∈ (g.applyChanges [(p, s)]).cellsToEvaluate ↔
      q = p ∨ ∃ offset ∈ g.influenceSet, q = p + offset := by
  have hfr : (g.applyChanges [(p, s)]).cellsToEvaluate
      = (g.influenceSet.map (fun offset => p + offset)).foldl setInsert
          (setInsert [] p) := by
    unfold FCellSpace.applyChanges
    simp only [List.foldl_cons, List.foldl_nil]
    have hprior : ({ g with cellsToEvaluate := ([] : List Point)
        } : FCellSpace).getState p = g.getState p := rfl
    unfold FCellSpace.setCell
    rw [hprior, if_pos h]
    unfold FCellSpace.addToFrontier
    by_cases hdef : s = g.defaultState
    · simp only [if_pos hdef]
      by_cases hemp : cellErase g.nonDefaultCells p = [] <;>
        simp [hemp]
    · simp only [if_neg hdef]
      unfold FCellSpace.expandBounds
      by_cases hbv : g.boundsValid <;>
        by_cases hemp : cellAssign g.nonDefaultCells p s = [] <;>
          simp [hbv, hemp]
  rw [hfr, foldl_setInsert_mem, setInsert_mem]
  constructor
  · intro hh
    rcases hh with (hh | hh) | hh
    · simp at hh
    · exact Or.inl hh
    · obtain ⟨o, ho, rfl⟩ := List.mem_map.1 hh
      exact Or.inr ⟨o, ho, rfl⟩
  · intro hh
    rcases hh with hh | ⟨o, ho, rfl⟩
    · exact Or.inl (Or.inr hh)
    · exact Or.inr (List.mem_map.2 ⟨o, ho, rfl⟩)

theorem claim_C2_witness :
    ((1 : Int) ≠ (FCellSpace.make 0 [⟨0, 0⟩, ⟨1, 0⟩]).getState ⟨0, 0⟩) ∧
    ((⟨2, 0⟩ : Point) ∈
        ((FCellSpace.make 0 [⟨0, 0⟩, ⟨1, 0⟩]).applyChanges
          [(⟨0, 0⟩, 1)]).cellsToEvaluate ↔
      (⟨2, 0⟩ : Point) = ⟨0, 0⟩ ∨
        ∃ offset ∈ (FCellSpace.make 0 [⟨0, 0⟩, ⟨1, 0⟩]).influenceSet,
          (⟨2, 0⟩ : Point) = (⟨0, 0⟩ : Point) + offset) :=
  ⟨by decide, claim_C2 _ ⟨0, 0⟩ 1 ⟨2, 0⟩ (by decide)⟩

/-! ## Huffman codec (`src/file_io/huffman_coding.cpp`)

`HuffmanNode` is either a leaf (byte value + frequency) or an internal node
with two children (in the trees built by `buildHuffmanTree`, internal nodes
always have both children set; the `data` field of an internal node is
never meaningful).  Byte values and frequencies are `Nat`; the C++
`unsigned` frequency counter wraps modulo `2 ^ 32`, which is made explicit
in `buildFrequencyTable`.  The priority queue (`std::priority_queue` with
the `CompareNodes` comparator declared in the missing header
`huffman_coding.h`) is modelled from the spec as a min-queue keyed by
frequency with ties broken by queue order. -/

namespace HuffmanCoding

inductive HuffmanNode where
  | leaf (data : Nat) (frequency : Nat)
  | internal (frequency : Nat) (left right : HuffmanNode)
deriving DecidableEq

def HuffmanNode.frequency : HuffmanNode → Nat
  | .leaf _ f => f
  | .internal f _ _ => f

/-- The `data` field of a node (irrelevant and unread for internal nodes). -/
def HuffmanNode.dataOf : HuffmanNode → Nat
  | .leaf d _ => d
  | .internal _ _ _ => 0

/-- `buildFrequencyTable` (huffman_coding.cpp lines 15-21):
`std::map<uint8_t, unsigned>` counting occurrences — entries iterate in
ascending byte order; the `unsigned` count wraps modulo `2 ^ 32`. -/
def buildFrequencyTable (data : List Nat) : List (Nat × Nat) :=
  ((List.range 256).filter (fun b => data.count b != 0)).map
    (fun b => (b, data.count b % 2 ^ 32))

/-- Modelled from the spec: one `push` into the frequency-keyed min-priority
queue (the `CompareNodes` comparator is declared in `huffman_coding.h`,
which is not among the provided sources); ties are broken by queue order,
as the spec allows any internally consistent tie-break. -/
def pqInsert (t : HuffmanNode) : List HuffmanNode → List HuffmanNode
  | [] => [t]
  | u :: rest =>
      if t.frequency < u.frequency then t :: u :: rest
      else u :: pqInsert t rest

theorem pqInsert_length (t : HuffmanNode) (q : List HuffmanNode) :
    (pqInsert t q).length = q.length + 1 := by
  induction q with
  | nil => rfl
  | cons u rest ih =>
      unfold pqInsert
      by_cases h : t.frequency < u.frequency <;> simp [h, ih]

/-- The merge loop of `buildHuffmanTree` (huffman_coding.cpp lines 53-66):
while more than one node remains, pop the two minimum-frequency nodes and
push an internal node combining them; return the last remaining node. -/
def buildLoop : List HuffmanNode → Option HuffmanNode
  | [] => none
  | [t] => some t
  | a :: b :: rest =>
      buildLoop (pqInsert (.internal (a.frequency + b.frequency) a b) rest)
termination_by q => q.length
decreasing_by
  simp only [pqInsert_length, List.length_cons]
  omega

/-- `buildHuffmanTree` (huffman_coding.cpp lines 28-70): push a leaf per
frequency-table entry (in map order); if only one node, synthesize an
internal node whose left child is the real leaf and whose right child is a
dummy leaf with the same byte and frequency 0; then run the merge loop. -/
def buildHuffmanTree (freqTable : List (Nat × Nat)) : Option HuffmanNode :=
  if freqTable = [] then none
  else
    let q0 := freqTable.foldl (fun q bf => pqInsert (.leaf bf.1 bf.2) q) []
    let q1 := match q0 with
      | [single] =>
          [HuffmanNode.internal single.frequency single (.leaf single.dataOf 0)]
      | _ => q0
    buildLoop q1

/-- `huffmanCodesMap.find(b)` on the association-list code map. -/
def codeFind : List (Nat × List Bool) → Nat → Option (List Bool)
  | [], _ => none
  | (k, v) :: rest, b => if b = k then some v else codeFind rest b

/-- `huffmanCodesMap[b] = code` (replace if present, append otherwise). -/
def codeAssign : List (Nat × List Bool) → Nat → List Bool →
    List (Nat × List Bool)
  | [], b, code => [(b, code)]
  | (k, v) :: rest, b, code =>
      if b = k then (b, code) :: rest else (k, v) :: codeAssign rest b code

/-- `generateCodes` (huffman_coding.cpp lines 78-107): at a leaf, store the
current code (with the single-root-leaf special case of lines 87-93); at an
internal node, recurse left with a `0` bit appended, then right with a `1`
bit appended.  `false` is the `'0'` bit. -/
def generateCodes : HuffmanNode → List Bool → List (Nat × List Bool) →
    List (Nat × List Bool)
  | .leaf d f, currentCode, acc =>
      if currentCode = [] ∧ acc = [] ∧ 0 < f then codeAssign acc d [false]
      else codeAssign acc d currentCode
  | .internal _ l r, currentCode, acc =>
      generateCodes r (currentCode ++ [true])
        (generateCodes l (currentCode ++ [false]) acc)

/-- The single-unique-byte fixup of `compress` (huffman_coding.cpp lines
152-157): if the frequency table has exactly one entry and its byte has no
or an empty code, assign it the code `"0"`. -/
def huffmanCodesFor (freqTable : List (Nat × Nat)) (treeRoot : HuffmanNode) :
    List (Nat × List Bool) :=
  let codes := generateCodes treeRoot [] []
  if freqTable.length = 1 then
    match freqTable with
    | (b, _) :: _ =>
        match codeFind codes b with
        | none => codeAssign codes b [false]
        | some code =>
            if code = [] then codeAssign codes b [false] else codes
    | [] => codes
  else codes

/-- The encoding loop of `compress` (huffman_coding.cpp lines 182-194):
concatenate each input byte's code; a byte without a code aborts. -/
def encodeData (huffmanCodes : List (Nat × List Bool)) :
    List Nat → Option (List Bool)
  | [] => some []
  | b :: rest =>
      match codeFind huffmanCodes b with
      | none => none
      | some code => (encodeData huffmanCodes rest).map (fun s => code ++ s)

/-- One output byte of the bit-packing loop (huffman_coding.cpp lines
207-215): 8 bits, MSB first. -/
def bitsToByte (b0 b1 b2 b3 b4 b5 b6 b7 : Bool) : Nat :=
  (if b0 then 128 else 0) + (if b1 then 64 else 0) + (if b2 then 32 else 0) +
  (if b3 then 16 else 0) + (if b4 then 8 else 0) + (if b5 then 4 else 0) +
  (if b6 then 2 else 0) + (if b7 then 1 else 0)

/-- The bit-packing loop of `compress`: consume 8 bits per output byte.
(After padding the bit string's length is a multiple of 8.) -/
def packBits : List Bool → List Nat
  | b0 :: b1 :: b2 :: b3 :: b4 :: b5 :: b6 :: b7 :: rest =>
      bitsToByte b0 b1 b2 b3 b4 b5 b6 b7 :: packBits rest
  | _ => []

/-- One byte expanded to its 8 bits, MSB first (`(byte >> j) & 1` for
`j = 7 .. 0`, huffman_coding.cpp lines 300-305). -/
def byteToBits (byte : Nat) : List Bool :=
  [byte.testBit 7, byte.testBit 6, byte.testBit 5, byte.testBit 4,
   byte.testBit 3, byte.testBit 2, byte.testBit 1, byte.testBit 0]

/-- `HuffmanCoding::compress` (huffman_coding.cpp lines 124-221). -/
def compress (dataToCompress : List Nat) : List Nat :=
  if dataToCompress = [] then toLEBytes 8 0
  else
    let freqTable := buildFrequencyTable dataToCompress
    match buildHuffmanTree freqTable with
    | none => []
    | some treeRoot =>
        let huffmanCodes := huffmanCodesFor freqTable treeRoot
        match encodeData huffmanCodes dataToCompress with
        | none => []
        | some encoded =>
            let paddedBitsCount :=
              if encoded = [] then 0 else (8 - encoded.length % 8) % 8
            toLEBytes 8 dataToCompress.length
              ++ toLEBytes 4 freqTable.length
              ++ freqTable.flatMap (fun bf => bf.1 :: toLEBytes 4 bf.2)
              ++ [paddedBitsCount]
              ++ packBits (encoded ++ List.replicate paddedBitsCount false)

/-- The frequency-table reading loop of `decompress` (huffman_coding.cpp
lines 259-269): read `count` entries of 5 bytes each (byte value + 32-bit
little-endian frequency), with a bounds check per entry. -/
def readFreqEntries : Nat → List Nat → Option (List (Nat × Nat) × List Nat)
  | 0, rest => some ([], rest)
  | k + 1, rest =>
      match rest with
      | b :: f0 :: f1 :: f2 :: f3 :: rest2 =>
          match readFreqEntries k rest2 with
          | none => none
          | some (entries, rest3) =>
              some ((b, readLEBytes [f0, f1, f2, f3]) :: entries, rest3)
      | _ => none

/-- `freqTable[byte] = freq` on the sorted `std::map` being rebuilt by
`decompress` (insertion keeps keys ascending; assignment overwrites). -/
def freqAssignSorted : List (Nat × Nat) → Nat → Nat → List (Nat × Nat)
  | [], b, f => [(b, f)]
  | (b0, f0) :: rest, b, f =>
      if b < b0 then (b, f) :: (b0, f0) :: rest
      else if b = b0 then (b, f) :: rest
      else (b0, f0) :: freqAssignSorted rest b f

/-- The `std::map<uint8_t, unsigned>` built from the entries read by
`decompress`, in read order. -/
def freqMapOf (entries : List (Nat × Nat)) : List (Nat × Nat) :=
  entries.foldl (fun m bf => freqAssignSorted m bf.1 bf.2) []

/-- The single-character extraction of `decompress` (huffman_coding.cpp
lines 320-326): the left child if it is a leaf, else the right child if it
is a leaf, else the root itself if it is a leaf, else failure. -/
def singleCharOf : HuffmanNode → Option Nat
  | .internal _ (.leaf d _) _ => some d
  | .internal _ (.internal _ _ _) (.leaf d _) => some d
  | .internal _ (.internal _ _ _) (.internal _ _ _) => none
  | .leaf d _ => some d

/-- The bit-consuming decode loop of `decompress` (huffman_coding.cpp lines
332-359): walk from the root, `'0'` = left; on reaching a leaf emit its
byte and reset to the root, stopping once `originalSize` bytes are out;
standing at a leaf with bits left to consume is the null-traversal error. -/
def walkBits (treeRoot : HuffmanNode) :
    List Bool → HuffmanNode → Nat → List Nat → Option (List Nat)
  | [], _, _, out => some out
  | _ :: _, .leaf _ _, _, _ => none
  | bit :: rest, .internal _ l r, originalSize, out =>
      match if bit then r else l with
      | .leaf d _ =>
          if (out ++ [d]).length = originalSize then some (out ++ [d])
          else walkBits treeRoot rest treeRoot originalSize (out ++ [d])
      | .internal f2 l2 r2 =>
          walkBits treeRoot rest (.internal f2 l2 r2) originalSize out

/-- `HuffmanCoding::decompress` (huffman_coding.cpp lines 225-373). -/
def decompress (compressedData : List Nat) : List Nat :=
  if compressedData.length < 8 + 4 + 1 then []
  else
    let originalSize := readLEBytes (compressedData.take 8)
    if originalSize = 0 then []
    else
      let rest1 := compressedData.drop 8
      let freqTableNumEntries := readLEBytes (rest1.take 4)
      let rest2 := rest1.drop 4
      match readFreqEntries freqTableNumEntries rest2 with
      | none => []
      | some (entries, rest3) =>
          let freqTable := freqMapOf entries
          if freqTable = [] then []
          else
            match buildHuffmanTree freqTable with
            | none => []
            | some treeRoot =>
                match rest3 with
                | [] => []
                | paddedBitsCount :: rest4 =>
                    let bitString := rest4.flatMap byteToBits
                    if bitString.length < paddedBitsCount then []
                    else
                      let bits :=
                        if bitString ≠ [] ∧ 0 < paddedBitsCount ∧
                            paddedBitsCount < 8 then
                          bitString.take (bitString.length - paddedBitsCount)
                        else bitString
                      if freqTable.length = 1 then
                        match singleCharOf treeRoot with
                        | none => []
                        | some singleChar =>
                            List.replicate originalSize singleChar
                      else
                        match walkBits treeRoot bits treeRoot originalSize []
                        with
                        | none => []
                        | some out =>
                            if out.length = originalSize then out else []

end HuffmanCoding

namespace HuffmanCoding

/-! ### Decoder walk along a code path -/

/-- Follow a bit path from a node (`'0'`/`false` = left). -/
def followPath : HuffmanNode → List Bool → Option HuffmanNode
  | t, [] => some t
  | .leaf _ _, _ :: _ => none
  | .internal _ l r, bit :: p => followPath (if bit then r else l) p

theorem followPath_append (t : HuffmanNode) (p q : List Bool) :
    followPath t (p ++ q)
      = (followPath t p).bind (fun u => followPath u q) := by
  induction p generalizing t with
  | nil => simp [followPath]
  | cons bit p ih =>
      cases t with
      | leaf d f => simp [followPath]
      | internal f l r =>
          rw [List.cons_append]
          show followPath (if bit then r else l) (p ++ q) = _
          rw [ih]
          rfl

/-- Walking the decoder along a full code path `p` of the leaf for `d`
consumes exactly `p`, emits `d`, and either stops (output complete) or
continues from the root. -/
theorem walkBits_path (root : HuffmanNode) :
    ∀ (p : List Bool) (cur : HuffmanNode) (d f : Nat), p ≠ [] →
      followPath cur p = some (.leaf d f) →
      ∀ (rest : List Bool) (target : Nat) (out : List Nat),
        walkBits root (p ++ rest) cur target out
          = if (out ++ [d]).length = target then some (out ++ [d])
            else walkBits root rest root target (out ++ [d]) := by
  intro p
  induction p with
  | nil => intro cur d f hne; exact absurd rfl hne
  | cons bit p ih =>
      intro cur d f _ hfollow rest target out
      cases cur with
      | leaf d0 f0 => simp [followPath] at hfollow
      | internal f0 l r =>
          have hfollow2 : followPath (if bit then r else l) p
              = some (.leaf d f) := hfollow
          cases p with
          | nil =>
              simp only [followPath] at hfollow2
              injection hfollow2 with hleaf
              rw [List.cons_append, List.nil_append]
              show (match if bit then r else l with
                | .leaf d _ =>
                    if (out ++ [d]).length = target then some (out ++ [d])
                    else walkBits root rest root target (out ++ [d])
                | .internal f2 l2 r2 =>
                    walkBits root rest (.internal f2 l2 r2) target out) = _
              rw [hleaf]
          | cons bit2 p2 =>
              have hnode : ∃ f2 l2 r2,
                  (if bit then r else l) = .internal f2 l2 r2 := by
                cases hchild : if bit then r else l with
                | leaf d3 f3 =>
                    rw [hchild] at hfollow2
                    simp [followPath] at hfollow2
                | internal f3 l3 r3 => exact ⟨f3, l3, r3, rfl⟩
              obtain ⟨f2, l2, r2, hchild⟩ := hnode
              rw [hchild] at hfollow2
              rw [List.cons_append]
              show (match if bit then r else l with
                | .leaf d _ =>
                    if (out ++ [d]).length = target then some (out ++ [d])
                    else walkBits root ((bit2 :: p2) ++ rest) root target
                      (out ++ [d])
                | .internal f2 l2 r2 =>
                    walkBits root ((bit2 :: p2) ++ rest)
                      (.internal f2 l2 r2) target out) = _
              rw [hchild]
              exact ih _ d f (by simp) hfollow2 rest target out

/-! ### Code-map association list -/

theorem codeAssign_mem {m : List (Nat × List Bool)} {k : Nat} {v : List Bool}
    {e : Nat × List Bool} (h : e ∈ codeAssign m k v) : e ∈ m ∨ e = (k, v) := by
  induction m with
  | nil => simpa [codeAssign] using h
  | cons kv rest ih =>
      obtain ⟨k0, v0⟩ := kv
      by_cases hk : k = k0
      · simp only [codeAssign, if_pos hk] at h
        rcases List.mem_cons.1 h with h | h
        · right; exact h
        · left; exact List.mem_cons_of_mem _ h
      · simp only [codeAssign, if_neg hk] at h
        rcases List.mem_cons.1 h with h | h
        · left; exact List.mem_cons.2 (Or.inl h)
        · rcases ih h with h | h
          · left; exact List.mem_cons_of_mem _ h
          · right; exact h

theorem codeFind_mem {m : List (Nat × List Bool)} {b : Nat} {p : List Bool}
    (h : codeFind m b = some p) : (b, p) ∈ m := by
  induction m with
  | nil => simp [codeFind] at h
  | cons kv rest ih =>
      obtain ⟨k, v⟩ := kv
      by_cases hk : b = k
      · simp only [codeFind, if_pos hk] at h
        injection h with h
        subst h hk
        exact List.mem_cons_self _ _
      · simp only [codeFind, if_neg hk] at h
        exact List.mem_cons_of_mem _ (ih h)

theorem codeFind_codeAssign (m : List (Nat × List Bool)) (k : Nat)
    (v : List Bool) (b : Nat) :
    codeFind (codeAssign m k v) b
      = if b = k then some v else codeFind m b := by
  induction m with
  | nil =>
      by_cases hb : b = k <;> simp [codeAssign, codeFind, hb]
  | cons kv rest ih =>
      obtain ⟨k0, v0⟩ := kv
      by_cases hk : k = k0
      · subst hk
        by_cases hb : b = k <;> simp [codeAssign, codeFind, hb]
      · by_cases hb : b = k0
        · subst hb
          have hbk : ¬b = k := fun h => hk h.symm
          simp [codeAssign, hk, codeFind, hbk]
        · simp [codeAssign, hk, codeFind, hb, ih]

/-! ### Generated codes are exactly the leaf paths -/

/-- `d` is the byte value of some leaf of `t`. -/
def leafMem (d : Nat) : HuffmanNode → Prop
  | .leaf d0 _ => d = d0
  | .internal _ l r => leafMem d l ∨ leafMem d r

/-- Every entry of the code map built by `generateCodes` below a nonempty
prefix is either inherited from the accumulator or is a leaf byte paired
with the prefix extended by that leaf's path. -/
theorem generateCodes_mem (t : HuffmanNode) :
    ∀ (pre : List Bool) (acc : List (Nat × List Bool)) (d : Nat)
      (p : List Bool), pre ≠ [] → (d, p) ∈ generateCodes t pre acc →
      (d, p) ∈ acc ∨
        ∃ q f, p = pre ++ q ∧ followPath t q = some (.leaf d f) := by
  induction t with
  | leaf d0 f0 =>
      intro pre acc d p hpre hmem
      simp only [generateCodes] at hmem
      rw [if_neg (by simp [hpre])] at hmem
      rcases codeAssign_mem hmem with h | h
      · exact Or.inl h
      · injection h with h1 h2
        subst h1
        exact Or.inr ⟨[], f0, by rw [h2, List.append_nil], rfl⟩
  | internal f0 l r ihl ihr =>
      intro pre acc d p hpre hmem
      simp only [generateCodes] at hmem
      rcases ihr (pre ++ [true]) _ d p (by simp) hmem with h | ⟨q, fl, hq, hf⟩
      · rcases ihl (pre ++ [false]) acc d p (by simp) h with h2 | ⟨q, fl, hq, hf⟩
        · exact Or.inl h2
        · refine Or.inr ⟨false :: q, fl, by rw [hq, List.append_assoc]; rfl, ?_⟩
          show followPath (if false then r else l) q = some (.leaf d fl)
          simpa using hf
      · refine Or.inr ⟨true :: q, fl, by rw [hq, List.append_assoc]; rfl, ?_⟩
        show followPath (if true then r else l) q = some (.leaf d fl)
        simpa using hf

/-- Every leaf byte of `t` has an entry in the code map built by
`generateCodes`. -/
theorem generateCodes_hasKey (t : HuffmanNode) :
    ∀ (pre : List Bool) (acc : List (Nat × List Bool)) (d : Nat),
      leafMem d t ∨ (codeFind acc d).isSome = true →
      (codeFind (generateCodes t pre acc) d).isSome = true := by
  induction t with
  | leaf d0 f0 =>
      intro pre acc d hd
      simp only [generateCodes]
      by_cases hcase : pre = [] ∧ acc = [] ∧ 0 < f0
      · rw [if_pos hcase, codeFind_codeAssign]
        rcases hd with hd | hd
        · rw [if_pos (show d = d0 from hd)]; rfl
        · rw [hcase.2.1] at hd
          simp [codeFind] at hd
      · rw [if_neg hcase, codeFind_codeAssign]
        rcases hd with hd | hd
        · rw [if_pos (show d = d0 from hd)]; rfl
        · by_cases hdd : d = d0
          · rw [if_pos hdd]; rfl
          · rw [if_neg hdd]; exact hd
  | internal f0 l r ihl ihr =>
      intro pre acc d hd
      simp only [generateCodes, leafMem] at hd ⊢
      rcases hd with (hd | hd) | hd
      · exact ihr _ _ d (Or.inr (ihl _ acc d (Or.inl hd)))
      · exact ihr _ _ d (Or.inl hd)
      · exact ihr _ _ d (Or.inr (ihl _ acc d (Or.inr hd)))

/-! ### Structure of the built Huffman tree -/

theorem pqInsert_mem (t u : HuffmanNode) (q : List HuffmanNode) :
    u ∈ pqInsert t q ↔ u = t ∨ u ∈ q := by
  induction q with
  | nil => simp [pqInsert]
  | cons v rest ih =>
      unfold pqInsert
      by_cases h : t.frequency < v.frequency
      · simp only [if_pos h, List.mem_cons]
      · simp only [if_neg h, List.mem_cons, ih]
        tauto

theorem buildLoop_isSome :
    ∀ (q : List HuffmanNode), q ≠ [] → ∃ t, buildLoop q = some t := by
  intro q
  induction q using buildLoop.induct with
  | case1 => intro h; exact absurd rfl h
  | case2 t => intro _; exact ⟨t, by simp [buildLoop]⟩
  | case3 a b rest ih =>
      intro _
      have hne : pqInsert (.internal (a.frequency + b.frequency) a b) rest
          ≠ [] := by
        intro h
        have := pqInsert_length (.internal (a.frequency + b.frequency) a b) rest
        rw [h] at this
        simp at this
      obtain ⟨t, ht⟩ := ih hne
      exact ⟨t, by rw [buildLoop, ht]⟩

theorem buildLoop_leafMem :
    ∀ (q : List HuffmanNode) (t : HuffmanNode), buildLoop q = some t →
      ∀ d, (∃ u ∈ q, leafMem d u) → leafMem d t := by
  intro q
  induction q using buildLoop.induct with
  | case1 => intro t ht; simp [buildLoop] at ht
  | case2 u =>
      intro t ht d hd
      obtain ⟨v, hv, hleaf⟩ := hd
      simp only [List.mem_singleton] at hv
      subst hv
      simp only [buildLoop] at ht
      injection ht with ht
      rw [← ht]
      exact hleaf
  | case3 a b rest ih =>
      intro t ht d hd
      rw [buildLoop] at ht
      refine ih t ht d ?_
      obtain ⟨u, hu, hleaf⟩ := hd
      rcases List.mem_cons.1 hu with hu | hu
      · exact ⟨.internal (a.frequency + b.frequency) a b,
          (pqInsert_mem _ _ _).2 (Or.inl rfl), Or.inl (hu ▸ hleaf)⟩
      rcases List.mem_cons.1 hu with hu | hu
      · exact ⟨.internal (a.frequency + b.frequency) a b,
          (pqInsert_mem _ _ _).2 (Or.inl rfl), Or.inr (hu ▸ hleaf)⟩
      · exact ⟨u, (pqInsert_mem _ _ _).2 (Or.inr hu), hleaf⟩

theorem buildLoop_internal :
    ∀ (q : List HuffmanNode), 2 ≤ q.length → ∀ t, buildLoop q = some t →
      ∃ f l r, t = .internal f l r := by
  intro q
  induction q using buildLoop.induct with
  | case1 => intro h; simp at h
  | case2 u => intro h; simp at h
  | case3 a b rest ih =>
      intro _ t ht
      rw [buildLoop] at ht
      cases hrest : rest with
      | nil =>
          subst hrest
          simp only [pqInsert, buildLoop] at ht
          injection ht with ht
          exact ⟨_, _, _, ht.symm⟩
      | cons v rest2 =>
          refine ih ?_ t ht
          have := pqInsert_length (.internal (a.frequency + b.frequency) a b)
            rest
          rw [hrest] at this ⊢
          simp only [this, List.length_cons]
          omega

theorem foldl_pqInsert_mem (ft : List (Nat × Nat)) :
    ∀ (init : List HuffmanNode) (u : HuffmanNode),
      u ∈ ft.foldl (fun q bf => pqInsert (.leaf bf.1 bf.2) q) init ↔
        u ∈ init ∨ ∃ bf ∈ ft, u = HuffmanNode.leaf bf.1 bf.2 := by
  induction ft with
  | nil => intro init u; simp
  | cons bf rest ih =>
      intro init u
      rw [List.foldl_cons, ih, pqInsert_mem]
      constructor
      · intro h
        rcases h with (h | h) | ⟨bf2, hbf2, h⟩
        · exact Or.inr ⟨bf, List.mem_cons_self _ _, h⟩
        · exact Or.inl h
        · exact Or.inr ⟨bf2, List.mem_cons_of_mem _ hbf2, h⟩
      · intro h
        rcases h with h | ⟨bf2, hbf2, h⟩
        · exact Or.inl (Or.inr h)
        · rcases List.mem_cons.1 hbf2 with hbf2 | hbf2
          · exact Or.inl (Or.inl (by rw [h, hbf2]))
          · exact Or.inr ⟨bf2, hbf2, h⟩

theorem foldl_pqInsert_length (ft : List (Nat × Nat)) :
    ∀ init : List HuffmanNode,
      (ft.foldl (fun q bf => pqInsert (.leaf bf.1 bf.2) q) init).length
        = init.length + ft.length := by
  induction ft with
  | nil => intro init; simp
  | cons bf rest ih =>
      intro init
      rw [List.foldl_cons, ih, pqInsert_length]
      simp only [List.length_cons]
      omega

/-- For a nonempty frequency table the tree is built, its root is an
internal node, and every table byte is a leaf byte of the tree. -/
theorem buildHuffmanTree_spec (ft : List (Nat × Nat)) (hne : ft ≠ []) :
    ∃ f l r, buildHuffmanTree ft = some (.internal f l r) ∧
      ∀ bf ∈ ft, leafMem bf.1 (HuffmanNode.internal f l r) := by
  unfold buildHuffmanTree
  rw [if_neg hne]
  set q0 := ft.foldl (fun q bf => pqInsert (.leaf bf.1 bf.2) q) [] with hq0
  have hq0len : q0.length = ft.length := by
    rw [hq0, foldl_pqInsert_length]
    simp
  have hq0mem : ∀ u, u ∈ q0 ↔ ∃ bf ∈ ft, u = HuffmanNode.leaf bf.1 bf.2 := by
    intro u
    rw [hq0, foldl_pqInsert_mem]
    simp
  have hftlen : 1 ≤ ft.length := by
    cases ft with
    | nil => exact absurd rfl hne
    | cons a b => simp
  cases hq0case : q0 with
  | nil =>
      rw [hq0case] at hq0len
      simp at hq0len
      omega
  | cons u0 q0rest =>
      cases hq0rest : q0rest with
      | nil =>
          -- single-entry special case: synthesized internal node
          subst hq0rest
          have hu0 : ∃ bf ∈ ft, u0 = HuffmanNode.leaf bf.1 bf.2 :=
            (hq0mem u0).1 (by rw [hq0case]; exact List.mem_cons_self _ _)
          obtain ⟨bf, hbf, hu0⟩ := hu0
          refine ⟨u0.frequency, u0, .leaf u0.dataOf 0, ?_, ?_⟩
          · simp [buildLoop]
          · intro bf2 hbf2
            have hmem2 : (HuffmanNode.leaf bf2.1 bf2.2) ∈ q0 :=
              (hq0mem _).2 ⟨bf2, hbf2, rfl⟩
            rw [hq0case] at hmem2
            simp only [List.mem_singleton] at hmem2
            refine Or.inl ?_
            rw [← hmem2]
            exact rfl
      | cons u1 q0rest2 =>
          have hlen2 : 2 ≤ q0.length := by
            rw [hq0case, hq0rest]
            simp only [List.length_cons]
            omega
          have hq0ne : q0 ≠ [] := by
            rw [hq0case]
            simp
          obtain ⟨t, ht⟩ := buildLoop_isSome q0 hq0ne
          obtain ⟨f, l, r, hint⟩ := buildLoop_internal q0 hlen2 t ht
          subst hint
          rw [hq0case, hq0rest] at ht
          refine ⟨f, l, r, ht, ?_⟩
          intro bf hbf
          refine buildLoop_leafMem q0 _ (by rw [hq0case, hq0rest]; exact ht)
            bf.1 ⟨.leaf bf.1 bf.2, (hq0mem _).2 ⟨bf, hbf, rfl⟩, rfl⟩

/-! ### Frequency table facts -/

theorem mem_buildFrequencyTable {data : List Nat} {b : Nat} (hb : b < 256)
    (hmem : b ∈ data) :
    (b, data.count b % 2 ^ 32) ∈ buildFrequencyTable data := by
  unfold buildFrequencyTable
  refine List.mem_map.2 ⟨b, ?_, rfl⟩
  refine List.mem_filter.2 ⟨List.mem_range.2 hb, ?_⟩
  have : data.count b ≠ 0 := by
    rw [Ne, List.count_eq_zero]
    intro h
    exact h hmem
  simpa using this

theorem buildFrequencyTable_mem {data : List Nat} {bf : Nat × Nat}
    (h : bf ∈ buildFrequencyTable data) :
    bf.1 < 256 ∧ bf.1 ∈ data ∧ bf.2 = data.count bf.1 % 2 ^ 32 := by
  unfold buildFrequencyTable at h
  obtain ⟨b, hb, rfl⟩ := List.mem_map.1 h
  obtain ⟨hrange, hcount⟩ := List.mem_filter.1 hb
  refine ⟨List.mem_range.1 hrange, ?_, rfl⟩
  have : data.count b ≠ 0 := by simpa using hcount
  rw [Ne, List.count_eq_zero] at this
  exact not_not.1 this

theorem buildFrequencyTable_pairwise (data : List Nat) :
    (buildFrequencyTable data).Pairwise (fun e1 e2 => e1.1 < e2.1) := by
  unfold buildFrequencyTable
  rw [List.pairwise_map]
  exact (List.pairwise_lt_range 256).filter _

theorem buildFrequencyTable_values_lt (data : List Nat) :
    ∀ bf ∈ buildFrequencyTable data, bf.2 < 2 ^ 32 := by
  intro bf h
  rw [(buildFrequencyTable_mem h).2.2]
  exact Nat.mod_lt _ (by norm_num)

theorem buildFrequencyTable_ne_nil {data : List Nat} (hne : data ≠ [])
    (hbytes : ∀ b ∈ data, b < 256) : buildFrequencyTable data ≠ [] := by
  cases data with
  | nil => exact absurd rfl hne
  | cons b rest =>
      intro h
      have hm := mem_buildFrequencyTable
        (hbytes b (List.mem_cons_self b rest)) (List.mem_cons_self b rest)
      rw [h] at hm
      simp at hm

/-! ### Reading back the serialized frequency table -/

theorem readFreqEntries_encode (ft : List (Nat × Nat)) :
    ∀ rest, (∀ bf ∈ ft, bf.2 < 2 ^ 32) →
      readFreqEntries ft.length
        (ft.flatMap (fun bf => bf.1 :: toLEBytes 4 bf.2) ++ rest)
        = some (ft, rest) := by
  induction ft with
  | nil => intro rest _; rfl
  | cons bf ftr ih =>
      intro rest hlt
      obtain ⟨b, f⟩ := bf
      have hf : f < 2 ^ 32 := hlt (b, f) (List.mem_cons_self _ _)
      have htl : toLEBytes 4 f
          = [f % 256, f / 256 % 256, f / 256 / 256 % 256,
             f / 256 / 256 / 256 % 256] := by
        simp [toLEBytes]
      have hread : readLEBytes [f % 256, f / 256 % 256, f / 256 / 256 % 256,
          f / 256 / 256 / 256 % 256] = f := by
        rw [← htl]
        refine readLEBytes_toLEBytes_of_lt ?_
        calc f < 2 ^ 32 := hf
        _ = 256 ^ 4 := by norm_num
      simp only [List.flatMap_cons, htl, List.length_cons, List.cons_append,
        List.append_assoc]
      simp only [readFreqEntries, hread, List.nil_append]
      rw [ih rest (fun bf2 h2 => hlt bf2 (List.mem_cons_of_mem _ h2))]

theorem freqAssignSorted_append (m : List (Nat × Nat)) (b f : Nat)
    (h : ∀ e ∈ m, e.1 < b) : freqAssignSorted m b f = m ++ [(b, f)] := by
  induction m with
  | nil => rfl
  | cons e rest ih =>
      obtain ⟨b0, f0⟩ := e
      have hb0 : b0 < b := h (b0, f0) (List.mem_cons_self _ _)
      unfold freqAssignSorted
      rw [if_neg (by omega), if_neg (by omega)]
      rw [ih (fun e he => h e (List.mem_cons_of_mem _ he))]
      rfl

theorem freqMapOf_aux (ft : List (Nat × Nat)) :
    ∀ m : List (Nat × Nat), ft.Pairwise (fun e1 e2 => e1.1 < e2.1) →
      (∀ e ∈ m, ∀ e2 ∈ ft, e.1 < e2.1) →
      ft.foldl (fun m bf => freqAssignSorted m bf.1 bf.2) m = m ++ ft := by
  induction ft with
  | nil => intro m _ _; simp
  | cons bf ftr ih =>
      intro m hpair hlt
      rw [List.foldl_cons,
        freqAssignSorted_append m bf.1 bf.2
          (fun e he => hlt e he bf (List.mem_cons_self _ _))]
      rw [ih (m ++ [(bf.1, bf.2)]) (List.Pairwise.of_cons hpair) ?_]
      · simp
      · intro e he e2 he2
        rcases List.mem_append.1 he with he | he
        · exact hlt e he e2 (List.mem_cons_of_mem _ he2)
        · simp only [List.mem_singleton] at he
          rw [he]
          exact (List.pairwise_cons.1 hpair).1 e2 he2

/-- `decompress` rebuilds exactly the map `compress` serialized: inserting
the (strictly ascending) serialized entries into a fresh `std::map` returns
the same list. -/
theorem freqMapOf_sorted (ft : List (Nat × Nat))
    (hpair : ft.Pairwise (fun e1 e2 => e1.1 < e2.1)) : freqMapOf ft = ft := by
  unfold freqMapOf
  rw [freqMapOf_aux ft [] hpair (by simp)]
  simp

/-! ### Bit packing and unpacking -/

theorem byteToBits_bitsToByte (b0 b1 b2 b3 b4 b5 b6 b7 : Bool) :
    byteToBits (bitsToByte b0 b1 b2 b3 b4 b5 b6 b7)
      = [b0, b1, b2, b3, b4, b5, b6, b7] := by
  cases b0 <;> cases b1 <;> cases b2 <;> cases b3 <;>
    cases b4 <;> cases b5 <;> cases b6 <;> cases b7 <;> decide

theorem flatMap_packBits (n : Nat) :
    ∀ s : List Bool, s.length = 8 * n →
      (packBits s).flatMap byteToBits = s := by
  induction n with
  | zero =>
      intro s hs
      have : s = [] := List.eq_nil_of_length_eq_zero (by omega)
      subst this
      rfl
  | succ n ih =>
      intro s hs
      obtain ⟨b0, s0, rfl⟩ := List.exists_cons_of_ne_nil
        (show s ≠ [] by intro h; rw [h] at hs; simp at hs)
      obtain ⟨b1, s1, rfl⟩ := List.exists_cons_of_ne_nil
        (show s0 ≠ [] by intro h; rw [h] at hs; simp at hs; omega)
      obtain ⟨b2, s2, rfl⟩ := List.exists_cons_of_ne_nil
        (show s1 ≠ [] by intro h; rw [h] at hs; simp at hs; omega)
      obtain ⟨b3, s3, rfl⟩ := List.exists_cons_of_ne_nil
        (show s2 ≠ [] by intro h; rw [h] at hs; simp at hs; omega)
      obtain ⟨b4, s4, rfl⟩ := List.exists_cons_of_ne_nil
        (show s3 ≠ [] by intro h; rw [h] at hs; simp at hs; omega)
      obtain ⟨b5, s5, rfl⟩ := List.exists_cons_of_ne_nil
        (show s4 ≠ [] by intro h; rw [h] at hs; simp at hs; omega)
      obtain ⟨b6, s6, rfl⟩ := List.exists_cons_of_ne_nil
        (show s5 ≠ [] by intro h; rw [h] at hs; simp at hs; omega)
      obtain ⟨b7, s7, rfl⟩ := List.exists_cons_of_ne_nil
        (show s6 ≠ [] by intro h; rw [h] at hs; simp at hs; omega)
      have hs7 : s7.length = 8 * n := by
        simp only [List.length_cons] at hs
        omega
      show (packBits (b0 :: b1 :: b2 :: b3 :: b4 :: b5 :: b6 :: b7 :: s7)
        ).flatMap byteToBits = _
      rw [packBits, List.flatMap_cons, byteToBits_bitsToByte, ih s7 hs7]
      rfl

/-! ### Encoding succeeds and decoding inverts it -/

theorem encodeData_eq (codes : List (Nat × List Bool)) :
    ∀ data : List Nat, (∀ b ∈ data, (codeFind codes b).isSome = true) →
      encodeData codes data
        = some (data.flatMap (fun b => (codeFind codes b).getD [])) := by
  intro data
  induction data with
  | nil => intro _; rfl
  | cons d rest ih =>
      intro hall
      have hd := hall d (List.mem_cons_self _ _)
      obtain ⟨p, hp⟩ := Option.isSome_iff_exists.1 hd
      simp only [encodeData, hp,
        ih (fun b hb => hall b (List.mem_cons_of_mem _ hb)),
        Option.map_some, List.flatMap_cons]
      simp

theorem two_le_length_of_mem_ne {α : Type} {l : List α} {a b : α}
    (ha : a ∈ l) (hb : b ∈ l) (hne : a ≠ b) : 2 ≤ l.length := by
  cases l with
  | nil => simp at ha
  | cons x rest =>
      cases rest with
      | nil =>
          simp only [List.mem_singleton] at ha hb
          exact absurd (ha.trans hb.symm) hne
      | cons y rest2 => simp only [List.length_cons]; omega

/-- Every entry of the code map of an internal-rooted tree is a nonempty
root-to-leaf path for its byte. -/
theorem generateCodes_top (f0 : Nat) (l r : HuffmanNode) :
    ∀ e ∈ generateCodes (.internal f0 l r) [] [],
      e.2 ≠ [] ∧
        ∃ fl, followPath (.internal f0 l r) e.2 = some (.leaf e.1 fl) := by
  intro e he
  obtain ⟨d, p⟩ := e
  have hstep : generateCodes (.internal f0 l r) [] []
      = generateCodes r [true] (generateCodes l [false] []) := by
    simp [generateCodes]
  rw [hstep] at he
  rcases generateCodes_mem r [true] _ d p (by simp) he with h | ⟨q, fl, hq, hf⟩
  · rcases generateCodes_mem l [false] [] d p (by simp) h with h2 |
      ⟨q, fl, hq, hf⟩
    · simp at h2
    · subst hq
      refine ⟨by simp, fl, ?_⟩
      show followPath (if false then r else l) q = some (.leaf d fl)
      simpa using hf
  · subst hq
    refine ⟨by simp, fl, ?_⟩
    show followPath (if true then r else l) q = some (.leaf d fl)
    simpa using hf

/-- Decoding the concatenated codes of `data` (followed by any padding)
emits exactly `data` and stops. -/
theorem walkBits_decode (t : HuffmanNode) (codes : List (Nat × List Bool))
    (hgood : ∀ e ∈ codes,
      e.2 ≠ [] ∧ ∃ fl, followPath t e.2 = some (.leaf e.1 fl)) :
    ∀ (data out : List Nat) (extra : List Bool), data ≠ [] →
      (∀ b ∈ data, (codeFind codes b).isSome = true) →
      walkBits t
        (data.flatMap (fun b => (codeFind codes b).getD []) ++ extra) t
        (out.length + data.length) out
        = some (out ++ data) := by
  intro data
  induction data with
  | nil => intro out extra hne; exact absurd rfl hne
  | cons d rest ih =>
      intro out extra _ hall
      obtain ⟨p, hp⟩ := Option.isSome_iff_exists.1
        (hall d (List.mem_cons_self _ _))
      obtain ⟨hpne, fl, hfp⟩ := hgood (d, p) (codeFind_mem hp)
      rw [List.flatMap_cons, hp]
      simp only [Option.getD_some]
      rw [List.append_assoc]
      rw [walkBits_path t p t d fl hpne hfp]
      cases rest with
      | nil =>
          have hcond : (out ++ [d]).length
              = out.length + ([d] : List Nat).length := by simp
          rw [if_pos hcond]
      | cons d2 rest2 =>
          rw [if_neg (by
            simp only [List.length_append, List.length_cons, List.length_nil]
            omega)]
          have hrec := ih (out ++ [d]) extra (by simp)
            (fun b hb => hall b (List.mem_cons_of_mem _ hb))
          have hlen : (out ++ [d]).length + (d2 :: rest2).length
              = out.length + (d :: d2 :: rest2).length := by
            simp only [List.length_append, List.length_cons, List.length_nil]
            omega
          rw [hlen] at hrec
          rw [hrec]
          simp

/-! ### The single-distinct-byte pipeline -/

theorem filter_range_eq_singleton {b m : Nat} (p : Nat → Bool) (hb : b < m)
    (hp : ∀ c, p c = true ↔ c = b) :
    (List.range m).filter p = [b] := by
  induction m with
  | zero => omega
  | succ m ih =>
      rw [List.range_succ, List.filter_append]
      by_cases hbm : b < m
      · rw [ih hbm]
        have hm : p m = false := by
          cases hc : p m
          · rfl
          · rw [(hp m).1 hc] at hbm
            omega
        simp [hm]
      · have hbm2 : b = m := by omega
        subst hbm2
        have h1 : (List.range b).filter p = [] := by
          rw [List.filter_eq_nil_iff]
          intro c hc
          rw [List.mem_range] at hc
          intro hpc
          rw [(hp c).1 hpc] at hc
          omega
        have h2 : p b = true := (hp b).2 rfl
        simp [h1, h2]

theorem buildFrequencyTable_replicate {n b : Nat} (hn : 0 < n)
    (hb : b < 256) :
    buildFrequencyTable (List.replicate n b) = [(b, n % 2 ^ 32)] := by
  unfold buildFrequencyTable
  rw [filter_range_eq_singleton _ hb]
  · simp [List.count_replicate]
  · intro c
    rw [List.count_replicate]
    by_cases hc : c = b <;> simp [hc] <;> omega

theorem buildHuffmanTree_single (b f : Nat) :
    buildHuffmanTree [(b, f)]
      = some (.internal f (.leaf b f) (.leaf b 0)) := by
  simp [buildHuffmanTree, pqInsert, buildLoop, HuffmanNode.frequency,
    HuffmanNode.dataOf]

theorem huffmanCodesFor_single (b f f2 : Nat) :
    huffmanCodesFor [(b, f)] (.internal f2 (.leaf b f) (.leaf b 0))
      = [(b, [true])] := by
  simp [huffmanCodesFor, generateCodes, codeAssign, codeFind]

theorem encodeData_replicate (b : Nat) :
    ∀ n, encodeData [(b, [true])] (List.replicate n b)
      = some (List.replicate n true) := by
  intro n
  induction n with
  | zero => rfl
  | succ n ih =>
      rw [List.replicate_succ, encodeData]
      simp only [codeFind, if_pos rfl, ih, Option.map_some]
      rw [List.replicate_succ]
      rfl

/-- `compress` on `n ≥ 1` copies of a byte `b`: header, the one-entry
frequency table, the padding count, and the packed all-ones bitstream. -/
theorem compress_replicate {n b : Nat} (hn : 0 < n) (hb : b < 256) :
    compress (List.replicate n b)
      = toLEBytes 8 n ++ toLEBytes 4 1
          ++ (b :: toLEBytes 4 (n % 2 ^ 32))
          ++ [(8 - n % 8) % 8]
          ++ packBits (List.replicate n true
              ++ List.replicate ((8 - n % 8) % 8) false) := by
  have hne : List.replicate n true ≠ ([] : List Bool) := by
    simp
    omega
  unfold compress
  rw [if_neg (by simp; omega)]
  simp only [buildFrequencyTable_replicate hn hb, buildHuffmanTree_single,
    huffmanCodesFor_single, encodeData_replicate, if_neg hne]
  simp [List.append_assoc]

theorem decompress_compress_replicate {n b : Nat} (hn : 0 < n)
    (hb : b < 256) (hn64 : n < 2 ^ 64) :
    decompress (compress (List.replicate n b)) = List.replicate n b := by
  have hpadlt : (8 - n % 8) % 8 < 8 := by omega
  have hdvd : (n + (8 - n % 8) % 8) % 8 = 0 := by omega
  have hcomp : compress (List.replicate n b)
      = toLEBytes 8 n ++ (toLEBytes 4 1
          ++ ((b :: toLEBytes 4 (n % 2 ^ 32))
            ++ ((8 - n % 8) % 8
              :: packBits (List.replicate n true
                  ++ List.replicate ((8 - n % 8) % 8) false)))) := by
    rw [compress_replicate hn hb]
    simp [List.append_assoc]
  rw [hcomp]
  have hlenA : (toLEBytes 8 n).length = 8 := toLEBytes_length _ _
  have hlenB : (toLEBytes 4 1).length = 4 := toLEBytes_length _ _
  have hreadA : readLEBytes (toLEBytes 8 n) = n :=
    readLEBytes_toLEBytes_of_lt (by calc n < 2 ^ 64 := hn64
                                      _ = 256 ^ 8 := by norm_num)
  have hreadB : readLEBytes (toLEBytes 4 1) = 1 :=
    readLEBytes_toLEBytes_of_lt (by norm_num)
  have hbits : (packBits (List.replicate n true
      ++ List.replicate ((8 - n % 8) % 8) false)).flatMap byteToBits
      = List.replicate n true ++ List.replicate ((8 - n % 8) % 8) false := by
    refine flatMap_packBits ((n + (8 - n % 8) % 8) / 8) _ ?_
    simp only [List.length_append, List.length_replicate]
    omega
  have hre : readFreqEntries 1 ((b :: toLEBytes 4 (n % 2 ^ 32))
      ++ ((8 - n % 8) % 8
        :: packBits (List.replicate n true
            ++ List.replicate ((8 - n % 8) % 8) false)))
      = some ([(b, n % 2 ^ 32)],
          (8 - n % 8) % 8
            :: packBits (List.replicate n true
                ++ List.replicate ((8 - n % 8) % 8) false)) := by
    have := readFreqEntries_encode [(b, n % 2 ^ 32)]
      ((8 - n % 8) % 8
        :: packBits (List.replicate n true
            ++ List.replicate ((8 - n % 8) % 8) false))
      (by intro bf hbf
          simp only [List.mem_singleton] at hbf
          rw [hbf]
          exact Nat.mod_lt _ (by norm_num))
    simpa using this
  simp only [decompress]
  rw [if_neg (by
    simp only [List.length_append, List.length_cons, hlenA, hlenB]
    omega)]
  rw [List.take_left' hlenA, hreadA, if_neg (by omega),
    List.drop_left' hlenA, List.take_left' hlenB, hreadB,
    List.drop_left' hlenB, hre]
  dsimp only
  rw [show freqMapOf [(b, n % 2 ^ 32)] = [(b, n % 2 ^ 32)] from rfl]
  rw [if_neg (by simp)]
  rw [buildHuffmanTree_single]
  simp only [hbits]
  rw [if_neg (by
    simp only [List.length_append, List.length_replicate]
    omega)]
  rw [if_pos (by simp)]
  rfl

/-- C9, counterexample: for the single-distinct-byte input `[5]`, the
synthesized 2-leaf tree does exist, but the real byte's code is the 1-bit
code `"1"` (the dummy leaf carries the same byte value and its traversal
overwrites the map entry), so the packed bitstream byte before padding is
`0x80`, not zero: `compress [5]` ends in `128`. -/
theorem claim_C9_counterexample :
    codeFind
        (huffmanCodesFor (buildFrequencyTable [5])
          ((buildHuffmanTree (buildFrequencyTable [5])).getD (.leaf 0 0))) 5
      = some [true] ∧
    encodeData
        (huffmanCodesFor (buildFrequencyTable [5])
          ((buildHuffmanTree (buildFrequencyTable [5])).getD (.leaf 0 0))) [5]
      = some [true] ∧
    compress [5] = [1, 0, 0, 0, 0, 0, 0, 0, 1, 0, 0, 0, 5, 1, 0, 0, 0,
      7, 128] := by
  have h5 : ([5] : List Nat) = List.replicate 1 5 := rfl
  refine ⟨?_, ?_, ?_⟩
  · rw [h5, buildFrequencyTable_replicate (by decide) (by decide),
      buildHuffmanTree_single]
    decide
  · rw [h5, buildFrequencyTable_replicate (by decide) (by decide),
      buildHuffmanTree_single]
    decide
  · rw [h5, compress_replicate (by decide) (by decide)]
    decide

/-- C9 (amended): for a non-empty input of `n` copies of one byte value
`b`, `compress` synthesizes the special tree — an internal node whose left
child is the real leaf and whose right child is a dummy leaf with the same
byte value and frequency 0 — but, because the dummy leaf shares the byte
value, its traversal overwrites the code map entry: the real byte is
encoded with the 1-bit code `"1"`, and every bit of the packed bitstream
before padding is 1 (not 0). -/
theorem claim_C9_amended (n b : Nat) (hn : 0 < n) (hb : b < 256) :
    buildHuffmanTree (buildFrequencyTable (List.replicate n b))
      = some (.internal (n % 2 ^ 32) (.leaf b (n % 2 ^ 32)) (.leaf b 0)) ∧
    codeFind
        (huffmanCodesFor (buildFrequencyTable (List.replicate n b))
          (.internal (n % 2 ^ 32) (.leaf b (n % 2 ^ 32)) (.leaf b 0))) b
      = some [true] ∧
    encodeData
        (huffmanCodesFor (buildFrequencyTable (List.replicate n b))
          (.internal (n % 2 ^ 32) (.leaf b (n % 2 ^ 32)) (.leaf b 0)))
        (List.replicate n b)
      = some (List.replicate n true) := by
  rw [buildFrequencyTable_replicate hn hb]
  refine ⟨buildHuffmanTree_single b (n % 2 ^ 32), ?_, ?_⟩
  · rw [huffmanCodesFor_single]
    simp [codeFind]
  · rw [huffmanCodesFor_single]
    exact encodeData_replicate b n

theorem claim_C9_amended_witness :
    0 < 2 ∧ 5 < 256 ∧
    (buildHuffmanTree (buildFrequencyTable (List.replicate 2 5))
        = some (.internal (2 % 2 ^ 32) (.leaf 5 (2 % 2 ^ 32)) (.leaf 5 0)) ∧
      codeFind
          (huffmanCodesFor (buildFrequencyTable (List.replicate 2 5))
            (.internal (2 % 2 ^ 32) (.leaf 5 (2 % 2 ^ 32)) (.leaf 5 0))) 5
        = some [true] ∧
      encodeData
          (huffmanCodesFor (buildFrequencyTable (List.replicate 2 5))
            (.internal (2 % 2 ^ 32) (.leaf 5 (2 % 2 ^ 32)) (.leaf 5 0)))
          (List.replicate 2 5)
        = some (List.replicate 2 true)) :=
  ⟨by decide, by decide, claim_C9_amended 2 5 (by decide) (by decide)⟩

/-! ### The general (two or more distinct bytes) round trip -/

theorem buildFrequencyTable_length_le (data : List Nat) :
    (buildFrequencyTable data).length ≤ 256 := by
  unfold buildFrequencyTable
  rw [List.length_map]
  refine le_trans (List.length_filter_le _ _) (by simp)

theorem decompress_compress_general (x : List Nat)
    (hbytes : ∀ b ∈ x, b < 256) (hlen : x.length < 2 ^ 64) (hx : x ≠ [])
    (htwo : 2 ≤ (buildFrequencyTable x).length) :
    decompress (compress x) = x := by
  have hne : buildFrequencyTable x ≠ [] := by
    intro h
    rw [h] at htwo
    simp at htwo
  obtain ⟨f0, l, r, htree, hleaves⟩ :=
    buildHuffmanTree_spec (buildFrequencyTable x) hne
  have hcodes : huffmanCodesFor (buildFrequencyTable x) (.internal f0 l r)
      = generateCodes (.internal f0 l r) [] [] := by
    unfold huffmanCodesFor
    rw [if_neg (by omega)]
  have hgood := generateCodes_top f0 l r
  have hcomplete : ∀ b ∈ x,
      (codeFind (generateCodes (.internal f0 l r) [] []) b).isSome = true := by
    intro b hb
    refine generateCodes_hasKey _ [] [] b (Or.inl ?_)
    exact hleaves (b, x.count b % 2 ^ 32)
      (mem_buildFrequencyTable (hbytes b hb) hb)
  have henc : encodeData (generateCodes (.internal f0 l r) [] []) x
      = some (x.flatMap (fun b =>
          (codeFind (generateCodes (.internal f0 l r) [] []) b).getD [])) :=
    encodeData_eq _ x hcomplete
  have hbitsne : x.flatMap (fun b =>
      (codeFind (generateCodes (.internal f0 l r) [] []) b).getD [])
      ≠ [] := by
    cases hx2 : x with
    | nil => exact absurd hx2 hx
    | cons d rest =>
        obtain ⟨p, hp⟩ := Option.isSome_iff_exists.1
          (hcomplete d (by rw [hx2]; exact List.mem_cons_self _ _))
        have hpne := (hgood (d, p) (codeFind_mem hp)).1
        rw [List.flatMap_cons, hp]
        simp only [Option.getD_some]
        intro hcontra
        rw [List.append_eq_nil] at hcontra
        exact hpne hcontra.1
  set bits := x.flatMap (fun b =>
    (codeFind (generateCodes (.internal f0 l r) [] []) b).getD [])
    with hbits
  have hpadlt : (8 - bits.length % 8) % 8 < 8 := by omega
  have hdvd : (bits.length + (8 - bits.length % 8) % 8) % 8 = 0 := by omega
  have hcompress : compress x
      = toLEBytes 8 x.length ++ (toLEBytes 4 (buildFrequencyTable x).length
          ++ (((buildFrequencyTable x).flatMap
                (fun bf => bf.1 :: toLEBytes 4 bf.2))
            ++ ((8 - bits.length % 8) % 8
              :: packBits (bits
                  ++ List.replicate ((8 - bits.length % 8) % 8) false)))) := by
    unfold compress
    rw [if_neg hx]
    simp only [htree, hcodes, henc]
    rw [if_neg hbitsne]
    simp [List.append_assoc]
  rw [hcompress]
  have hlenA : (toLEBytes 8 x.length).length = 8 := toLEBytes_length _ _
  have hlenB : (toLEBytes 4 (buildFrequencyTable x).length).length = 4 :=
    toLEBytes_length _ _
  have hreadA : readLEBytes (toLEBytes 8 x.length) = x.length :=
    readLEBytes_toLEBytes_of_lt
      (by calc x.length < 2 ^ 64 := hlen
               _ = 256 ^ 8 := by norm_num)
  have hreadB : readLEBytes (toLEBytes 4 (buildFrequencyTable x).length)
      = (buildFrequencyTable x).length :=
    readLEBytes_toLEBytes_of_lt
      (by calc (buildFrequencyTable x).length
            ≤ 256 := buildFrequencyTable_length_le x
          _ < 256 ^ 4 := by norm_num)
  have hxlenpos : x.length ≠ 0 := by
    intro h
    exact hx (List.eq_nil_of_length_eq_zero h)
  have hbitsunpack : (packBits (bits
      ++ List.replicate ((8 - bits.length % 8) % 8) false)).flatMap byteToBits
      = bits ++ List.replicate ((8 - bits.length % 8) % 8) false := by
    refine flatMap_packBits
      ((bits.length + (8 - bits.length % 8) % 8) / 8) _ ?_
    simp only [List.length_append, List.length_replicate]
    omega
  have hre : readFreqEntries (buildFrequencyTable x).length
      (((buildFrequencyTable x).flatMap (fun bf => bf.1 :: toLEBytes 4 bf.2))
        ++ ((8 - bits.length % 8) % 8
          :: packBits (bits
              ++ List.replicate ((8 - bits.length % 8) % 8) false)))
      = some (buildFrequencyTable x,
          (8 - bits.length % 8) % 8
            :: packBits (bits
                ++ List.replicate ((8 - bits.length % 8) % 8) false)) :=
    readFreqEntries_encode _ _ (buildFrequencyTable_values_lt x)
  simp only [decompress]
  rw [if_neg (by
    simp only [List.length_append, List.length_cons, hlenA, hlenB]
    omega)]
  rw [List.take_left' hlenA, hreadA, if_neg hxlenpos,
    List.drop_left' hlenA, List.take_left' hlenB, hreadB,
    List.drop_left' hlenB, hre]
  dsimp only
  rw [freqMapOf_sorted _ (buildFrequencyTable_pairwise x)]
  rw [if_neg hne, htree]
  simp only [hbitsunpack]
  rw [if_neg (by
    simp only [List.length_append, List.length_replicate]
    omega)]
  rw [if_neg (by omega)]
  have hbitsrecover : (if (bits
      ++ List.replicate ((8 - bits.length % 8) % 8) false) ≠ [] ∧
        0 < (8 - bits.length % 8) % 8 ∧ (8 - bits.length % 8) % 8 < 8 then
      (bits ++ List.replicate ((8 - bits.length % 8) % 8) false).take
        ((bits ++ List.replicate ((8 - bits.length % 8) % 8) false).length
          - (8 - bits.length % 8) % 8)
    else bits ++ List.replicate ((8 - bits.length % 8) % 8) false)
      = bits := by
    by_cases hp : (8 - bits.length % 8) % 8 = 0
    · rw [if_neg (by rw [hp]; simp)]
      rw [hp]
      simp
    · rw [if_pos ⟨by simp [hbitsne], by omega, hpadlt⟩]
      have hlt : (bits ++ List.replicate ((8 - bits.length % 8) % 8)
          false).length - (8 - bits.length % 8) % 8 = bits.length := by
        simp only [List.length_append, List.length_replicate]
        omega
      rw [hlt]
      exact List.take_left' rfl
  rw [hbitsrecover]
  have hwalk := walkBits_decode (.internal f0 l r)
    (generateCodes (.internal f0 l r) [] []) hgood x [] [] hx hcomplete
  simp only [List.length_nil, Nat.zero_add, List.nil_append,
    List.append_nil] at hwalk
  rw [← hbits] at hwalk
  rw [hwalk]
  dsimp only
  rw [if_pos rfl]

/-- C1: for every byte sequence (empty, single-byte, single distinct value
repeated, or general), decompressing the compressed stream returns the
original sequence: `decompress(compress(x)) == x`. -/
theorem claim_C1 (x : List Nat) (hbytes : ∀ b ∈ x, b < 256)
    (hlen : x.length < 2 ^ 64) :
    decompress (compress x) = x := by
  cases hx2 : x with
  | nil => rfl
  | cons d rest =>
      rw [← hx2]
      have hx : x ≠ [] := by rw [hx2]; simp
      have hd : d ∈ x := by rw [hx2]; exact List.mem_cons_self _ _
      by_cases hall : ∀ c ∈ x, c = d
      · have hrepl : x = List.replicate x.length d :=
          List.eq_replicate_iff.2 ⟨rfl, hall⟩
        rw [hrepl]
        refine decompress_compress_replicate ?_ (hbytes d hd) ?_
        · rw [hx2]
          simp
        · simpa using hlen
      · push_neg at hall
        obtain ⟨c, hc, hcd⟩ := hall
        refine decompress_compress_general x hbytes hlen hx ?_
        refine two_le_length_of_mem_ne
          (mem_buildFrequencyTable (hbytes d hd) hd)
          (mem_buildFrequencyTable (hbytes c hc) hc) ?_
        intro h
        injection h with h1 _
        exact hcd (by rw [h1])

theorem claim_C1_witness :
    (∀ b ∈ ([3, 1, 2, 1] : List Nat), b < 256) ∧
    ([3, 1, 2, 1] : List Nat).length < 2 ^ 64 ∧
    decompress (compress [3, 1, 2, 1]) = [3, 1, 2, 1] :=
  ⟨by decide, by decide, claim_C1 [3, 1, 2, 1] (by decide) (by decide)⟩

end HuffmanCoding

/-! ## SnapshotManager (`snapshot_manager.cpp`)

`writeInt32` emits the four bytes `(value >> (i*8)) & 0xFF` of an
`int32_t` — the little-endian two's-complement representation, i.e. the
bytes of `value mod 2^32`.  `readInt32` reads them back (with the
out-of-bounds check that throws in C++, modelled as `none`), rebuilding the
signed value.  `loadState`'s file read is modelled by passing the file
content as `Option (List Nat)` (`none` = open/read failure). -/

namespace SnapshotManager

def writeInt32 (value : Int) : List Nat :=
  toLEBytes 4 (value % 2 ^ 32).toNat

def readInt32 : List Nat → Option (Int × List Nat)
  | b0 :: b1 :: b2 :: b3 :: rest =>
      let n := readLEBytes [b0, b1, b2, b3]
      some (if n < 2 ^ 31 then (n : Int) else (n : Int) - 2 ^ 32, rest)
  | _ => none

/-- `SnapshotManager::serializeCellSpace` (snapshot_manager.cpp lines
39-67): four bounds fields (zeros when bounds are invalid), the active-cell
count (a `uint32_t` written through `int32_t`), then `(x, y, state)` per
active cell in map iteration order. -/
def serializeCellSpace (cellSpace : CellSpace) : List Nat :=
  let minBounds := getMinBounds cellSpace
  let maxBounds := getMaxBounds cellSpace
  let boundsValid := cellSpace.boundsInitialized
  writeInt32 (if boundsValid then minBounds.x else 0)
    ++ writeInt32 (if boundsValid then minBounds.y else 0)
    ++ writeInt32 (if boundsValid then maxBounds.x else 0)
    ++ writeInt32 (if boundsValid then maxBounds.y else 0)
    ++ writeInt32 (cellSpace.activeCells.length : Int)
    ++ cellSpace.activeCells.flatMap (fun pr =>
        writeInt32 pr.1.x ++ writeInt32 pr.1.y ++ writeInt32 pr.2)

/-- `loadedCells[p] = state` on the `std::map<Point, int>` being built by
`deserializeCellSpace` (keys ordered by `Point::operator<`, lexicographic
`x` then `y`; assignment overwrites). -/
def pmapAssign : List (Point × Int) → Point → Int → List (Point × Int)
  | [], p, s => [(p, s)]
  | (q, v) :: rest, p, s =>
      if p.x < q.x ∨ (p.x = q.x ∧ p.y < q.y) then (p, s) :: (q, v) :: rest
      else if p = q then (p, s) :: rest
      else (q, v) :: pmapAssign rest p s

/-- The cell-reading loop of `deserializeCellSpace` (snapshot_manager.cpp
lines 86-92). -/
def readCells : Nat → List Nat → List (Point × Int) →
    Option (List (Point × Int) × List Nat)
  | 0, rest, acc => some (acc, rest)
  | k + 1, rest, acc =>
      match readInt32 rest with
      | none => none
      | some (xv, r1) =>
          match readInt32 r1 with
          | none => none
          | some (yv, r2) =>
              match readInt32 r2 with
              | none => none
              | some (sv, r3) => readCells k r3 (pmapAssign acc ⟨xv, yv⟩ sv)

/-- The parsing phase of `deserializeCellSpace` (snapshot_manager.cpp lines
76-99): bounds, count (cast back to `uint32_t`), then the cells; any
out-of-range read aborts.  Trailing bytes are tolerated (only logged). -/
def parseSnapshot (data : List Nat) :
    Option (Point × Point × List (Point × Int)) :=
  match readInt32 data with
  | none => none
  | some (minx, r1) =>
      match readInt32 r1 with
      | none => none
      | some (miny, r2) =>
          match readInt32 r2 with
          | none => none
          | some (maxx, r3) =>
              match readInt32 r3 with
              | none => none
              | some (maxy, r4) =>
                  match readInt32 r4 with
                  | none => none
                  | some (cnt, r5) =>
                      match readCells (cnt % (2 ^ 32 : Int)).toNat r5 [] with
                      | none => none
                      | some (cells, _) =>
                          some (⟨minx, miny⟩, ⟨maxx, maxy⟩, cells)

/-- `SnapshotManager::deserializeCellSpace` (snapshot_manager.cpp lines
72-117): clears the target grid first, then parses; on success loads the
cells with the stored bounds, on any read error clears again and returns
false. -/
def deserializeCellSpace (data : List Nat) (cellSpace : CellSpace) :
    Bool × CellSpace :=
  let base := cellSpace.clear
  match parseSnapshot data with
  | none => (false, base)
  | some (minB, maxB, cells) => (true, loadActiveCells base cells minB maxB)

/-- `SnapshotManager::loadState` (snapshot_manager.cpp lines 169-213), with
the file content passed as `Option (List Nat)` (`none` models an
open/read failure): decompress, check the decompression-failed condition,
then deserialize into the caller's grid. -/
def loadState (fileContent : Option (List Nat)) (cellSpace : CellSpace) :
    Bool × CellSpace :=
  match fileContent with
  | none => (false, cellSpace)
  | some compressedData =>
      let serializedData := HuffmanCoding.decompress compressedData
      if serializedData = [] ∧ compressedData ≠ [] ∧
          ¬(compressedData.length = 8 ∧
            readLEBytes (compressedData.take 8) = 0) then
        (false, cellSpace)
      else deserializeCellSpace serializedData cellSpace

end SnapshotManager

namespace SnapshotManager

/-! ### int32 write/read round trip -/

theorem readInt32_writeInt32_core (v : Int) (rest : List Nat) :
    readInt32 (writeInt32 v ++ rest)
      = some (if (v % 2 ^ 32).toNat < 2 ^ 31
          then ((v % 2 ^ 32).toNat : Int)
          else ((v % 2 ^ 32).toNat : Int) - 2 ^ 32, rest) := by
  have hn : (v % 2 ^ 32).toNat < 2 ^ 32 := by omega
  have htl : toLEBytes 4 (v % 2 ^ 32).toNat
      = [(v % 2 ^ 32).toNat % 256, (v % 2 ^ 32).toNat / 256 % 256,
         (v % 2 ^ 32).toNat / 256 / 256 % 256,
         (v % 2 ^ 32).toNat / 256 / 256 / 256 % 256] := by
    simp [toLEBytes]
  have hread : readLEBytes [(v % 2 ^ 32).toNat % 256,
      (v % 2 ^ 32).toNat / 256 % 256, (v % 2 ^ 32).toNat / 256 / 256 % 256,
      (v % 2 ^ 32).toNat / 256 / 256 / 256 % 256] = (v % 2 ^ 32).toNat := by
    rw [← htl]
    exact readLEBytes_toLEBytes_of_lt (by norm_num at hn ⊢; exact hn)
  unfold writeInt32
  rw [htl]
  simp only [List.cons_append, List.nil_append, readInt32, hread]

theorem readInt32_writeInt32 (v : Int) (rest : List Nat)
    (h1 : -(2 ^ 31) ≤ v) (h2 : v < 2 ^ 31) :
    readInt32 (writeInt32 v ++ rest) = some (v, rest) := by
  rw [readInt32_writeInt32_core]
  have heq : (if (v % 2 ^ 32).toNat < 2 ^ 31
      then ((v % 2 ^ 32).toNat : Int)
      else ((v % 2 ^ 32).toNat : Int) - 2 ^ 32) = v := by
    by_cases h : (v % 2 ^ 32).toNat < 2 ^ 31
    · rw [if_pos h]
      omega
    · rw [if_neg h]
      omega
  rw [heq]

theorem readInt32_writeInt32_nat (k : Nat) (rest : List Nat)
    (hk : k < 2 ^ 32) :
    ∃ w : Int, readInt32 (writeInt32 (k : Int) ++ rest) = some (w, rest) ∧
      (w % (2 ^ 32 : Int)).toNat = k := by
  rw [readInt32_writeInt32_core]
  refine ⟨_, rfl, ?_⟩
  have hmod : ((k : Int) % 2 ^ 32).toNat = k := by omega
  rw [hmod]
  by_cases h : k < 2 ^ 31
  · rw [if_pos h]
    omega
  · rw [if_neg h]
    omega

/-! ### Rebuilt cell map -/

theorem cellFind_pmapAssign (m : List (Point × Int)) (q : Point) (v : Int)
    (p : Point) :
    cellFind (pmapAssign m q v) p = if p = q then some v else cellFind m p
    := by
  induction m with
  | nil =>
      by_cases hp : p = q <;> simp [pmapAssign, cellFind, hp]
  | cons e rest ih =>
      obtain ⟨q0, v0⟩ := e
      unfold pmapAssign
      by_cases hlt : q.x < q0.x ∨ (q.x = q0.x ∧ q.y < q0.y)
      · rw [if_pos hlt]
        by_cases hp : p = q <;> simp [cellFind, hp]
      · rw [if_neg hlt]
        by_cases heq : q = q0
        · rw [if_pos heq]
          by_cases hp : p = q
          · simp [cellFind, hp]
          · have hp0 : p ≠ q0 := by rw [← heq]; exact hp
            simp [cellFind, hp, hp0]
        · rw [if_neg heq]
          by_cases hp0 : p = q0
          · have hp : p ≠ q := by
              intro h
              rw [h] at hp0
              exact heq hp0
            have hq0q : q0 ≠ q := by
              intro h
              exact heq h.symm
            simp [cellFind, hp0, hp, hq0q]
          · simp [cellFind, hp0, ih]

theorem cellFind_eq_none {m : List (Point × Int)} {p : Point}
    (h : ∀ e ∈ m, e.1 ≠ p) : cellFind m p = none := by
  induction m with
  | nil => rfl
  | cons e rest ih =>
      obtain ⟨q, v⟩ := e
      have hq : q ≠ p := h (q, v) (List.mem_cons_self _ _)
      unfold cellFind
      rw [if_neg (fun hh => hq hh.symm)]
      exact ih (fun e he => h e (List.mem_cons_of_mem _ he))

theorem fold_pmapAssign_lookup (cells : List (Point × Int)) :
    ∀ (acc : List (Point × Int)) (p : Point),
      cells.Pairwise (fun e1 e2 => e1.1 ≠ e2.1) →
      cellFind (cells.foldl (fun m pr => pmapAssign m pr.1 pr.2) acc) p
        = match cellFind cells p with
          | some v => some v
          | none => cellFind acc p := by
  induction cells with
  | nil => intro acc p _; rfl
  | cons pr crest ih =>
      intro acc p hpair
      rw [List.foldl_cons, ih _ p (List.Pairwise.of_cons hpair)]
      by_cases hp : p = pr.1
      · have hnone : cellFind crest p = none := by
          refine cellFind_eq_none ?_
          intro e he
          rw [hp]
          exact ((List.pairwise_cons.1 hpair).1 e he).symm
        rw [hnone]
        have hfind : cellFind (pr :: crest) p = some pr.2 := by
          obtain ⟨q, v⟩ := pr
          simp only [cellFind]
          rw [if_pos hp]
        rw [hfind]
        simp only [cellFind_pmapAssign, if_pos hp]
      · have hfind : cellFind (pr :: crest) p = cellFind crest p := by
          obtain ⟨q, v⟩ := pr
          simp only [cellFind]
          rw [if_neg hp]
        rw [hfind]
        cases hc : cellFind crest p with
        | some v => rfl
        | none => simp only [cellFind_pmapAssign, if_neg hp]

/-! ### Reading back the serialized cells -/

theorem readCells_encode (cells : List (Point × Int)) :
    ∀ (rest : List Nat) (acc : List (Point × Int)),
      (∀ e ∈ cells, -(2 ^ 31) ≤ e.1.x ∧ e.1.x < 2 ^ 31 ∧
        -(2 ^ 31) ≤ e.1.y ∧ e.1.y < 2 ^ 31 ∧
        -(2 ^ 31) ≤ e.2 ∧ e.2 < 2 ^ 31) →
      readCells cells.length
        ((cells.flatMap (fun pr =>
          writeInt32 pr.1.x ++ writeInt32 pr.1.y ++ writeInt32 pr.2)) ++ rest)
        acc
        = some (cells.foldl (fun m pr => pmapAssign m pr.1 pr.2) acc, rest)
    := by
  induction cells with
  | nil => intro rest acc _; rfl
  | cons pr crest ih =>
      intro rest acc hrange
      obtain ⟨hx1, hx2, hy1, hy2, hs1, hs2⟩ :=
        hrange pr (List.mem_cons_self _ _)
      rw [List.flatMap_cons, List.length_cons]
      simp only [List.append_assoc]
      simp only [readCells, readInt32_writeInt32 pr.1.x _ hx1 hx2,
        readInt32_writeInt32 pr.1.y _ hy1 hy2,
        readInt32_writeInt32 pr.2 _ hs1 hs2]
      have ih2 := ih rest (pmapAssign acc ⟨pr.1.x, pr.1.y⟩ pr.2)
        (fun e he => hrange e (List.mem_cons_of_mem _ he))
      simp only [List.append_assoc] at ih2
      rw [ih2]
      rfl

/-- C3: for every grid with at least one active cell and valid
(initialized) bounds — cell coordinates, states and bounds within the
`int32_t` range, distinct keys, and fewer than `2^32` cells, as the C++
types guarantee — `deserializeCellSpace(serializeCellSpace(grid))` succeeds
and reconstructs exactly the same active-cell map (pointwise), `minBounds`,
and `maxBounds` as the original grid. -/
theorem claim_C3 (cs target : CellSpace) (p : Point)
    (hne : cs.activeCells ≠ [])
    (hinit : cs.boundsInitialized = true)
    (hkeys : cs.activeCells.Pairwise (fun e1 e2 => e1.1 ≠ e2.1))
    (hrange : ∀ e ∈ cs.activeCells,
      -(2 ^ 31) ≤ e.1.x ∧ e.1.x < 2 ^ 31 ∧ -(2 ^ 31) ≤ e.1.y ∧
      e.1.y < 2 ^ 31 ∧ -(2 ^ 31) ≤ e.2 ∧ e.2 < 2 ^ 31)
    (hbminx : -(2 ^ 31) ≤ cs.minGridBounds.x ∧ cs.minGridBounds.x < 2 ^ 31)
    (hbminy : -(2 ^ 31) ≤ cs.minGridBounds.y ∧ cs.minGridBounds.y < 2 ^ 31)
    (hbmaxx : -(2 ^ 31) ≤ cs.maxGridBounds.x ∧ cs.maxGridBounds.x < 2 ^ 31)
    (hbmaxy : -(2 ^ 31) ≤ cs.maxGridBounds.y ∧ cs.maxGridBounds.y < 2 ^ 31)
    (hcount : cs.activeCells.length < 2 ^ 32) :
    (deserializeCellSpace (serializeCellSpace cs) target).1 = true ∧
    (deserializeCellSpace (serializeCellSpace cs) target).2.boundsInitialized
      = true ∧
    (deserializeCellSpace (serializeCellSpace cs) target).2.minGridBounds
      = cs.minGridBounds ∧
    (deserializeCellSpace (serializeCellSpace cs) target).2.maxGridBounds
      = cs.maxGridBounds ∧
    cellFind (deserializeCellSpace (serializeCellSpace cs) target
      ).2.activeCells p = cellFind cs.activeCells p := by
  have hser : serializeCellSpace cs
      = writeInt32 cs.minGridBounds.x ++ (writeInt32 cs.minGridBounds.y
        ++ (writeInt32 cs.maxGridBounds.x ++ (writeInt32 cs.maxGridBounds.y
          ++ (writeInt32 (cs.activeCells.length : Int)
            ++ (cs.activeCells.flatMap (fun pr =>
                writeInt32 pr.1.x ++ writeInt32 pr.1.y ++ writeInt32 pr.2)
              ++ []))))) := by
    unfold serializeCellSpace
    simp only [hinit, if_pos, getMinBounds, getMaxBounds, if_true]
    simp [List.append_assoc]
  obtain ⟨w, hw, hwmod⟩ := readInt32_writeInt32_nat cs.activeCells.length
    (cs.activeCells.flatMap (fun pr =>
      writeInt32 pr.1.x ++ writeInt32 pr.1.y ++ writeInt32 pr.2) ++ [])
    hcount
  have hcells := readCells_encode cs.activeCells [] [] hrange
  have hparse : parseSnapshot (serializeCellSpace cs)
      = some (cs.minGridBounds, cs.maxGridBounds,
          cs.activeCells.foldl (fun m pr => pmapAssign m pr.1 pr.2) []) := by
    have r1 : ∀ rest, readInt32 (writeInt32 cs.minGridBounds.x ++ rest)
        = some (cs.minGridBounds.x, rest) :=
      fun rest => readInt32_writeInt32 _ rest hbminx.1 hbminx.2
    have r2 : ∀ rest, readInt32 (writeInt32 cs.minGridBounds.y ++ rest)
        = some (cs.minGridBounds.y, rest) :=
      fun rest => readInt32_writeInt32 _ rest hbminy.1 hbminy.2
    have r3 : ∀ rest, readInt32 (writeInt32 cs.maxGridBounds.x ++ rest)
        = some (cs.maxGridBounds.x, rest) :=
      fun rest => readInt32_writeInt32 _ rest hbmaxx.1 hbmaxx.2
    have r4 : ∀ rest, readInt32 (writeInt32 cs.maxGridBounds.y ++ rest)
        = some (cs.maxGridBounds.y, rest) :=
      fun rest => readInt32_writeInt32 _ rest hbmaxy.1 hbmaxy.2
    rw [hser]
    simp only [parseSnapshot, r1, r2, r3, r4, hw, hwmod, hcells]
  have hlookup : ∀ q : Point,
      cellFind (cs.activeCells.foldl
        (fun m pr => pmapAssign m pr.1 pr.2) []) q
        = cellFind cs.activeCells q := by
    intro q
    rw [fold_pmapAssign_lookup cs.activeCells [] q hkeys]
    cases cellFind cs.activeCells q <;> rfl
  have hfoldne : cs.activeCells.foldl
      (fun m pr => pmapAssign m pr.1 pr.2) [] ≠ [] := by
    cases hc : cs.activeCells with
    | nil => exact absurd hc hne
    | cons e crest =>
        intro hcontra
        have h1 := hlookup e.1
        rw [hc, hcontra] at h1
        have h2 : cellFind (e :: crest) e.1 = some e.2 := by
          obtain ⟨q, v⟩ := e
          simp [cellFind]
        rw [h2] at h1
        simp [cellFind] at h1
  unfold deserializeCellSpace
  rw [hparse]
  dsimp only
  unfold loadActiveCells
  rw [if_neg hfoldne]
  exact ⟨rfl, rfl, rfl, rfl, hlookup p⟩

theorem claim_C3_witness :
    ((runSetCellStates 0 [(⟨0, 0⟩, 1), (⟨1, 2⟩, 3)]).activeCells ≠ [] ∧
      (runSetCellStates 0 [(⟨0, 0⟩, 1), (⟨1, 2⟩, 3)]).boundsInitialized
        = true ∧
      (runSetCellStates 0 [(⟨0, 0⟩, 1), (⟨1, 2⟩, 3)]).activeCells.Pairwise
        (fun e1 e2 => e1.1 ≠ e2.1)) ∧
    ((deserializeCellSpace
        (serializeCellSpace (runSetCellStates 0 [(⟨0, 0⟩, 1), (⟨1, 2⟩, 3)]))
        (CellSpace.init 5)).1 = true ∧
      (deserializeCellSpace
        (serializeCellSpace (runSetCellStates 0 [(⟨0, 0⟩, 1), (⟨1, 2⟩, 3)]))
        (CellSpace.init 5)).2.boundsInitialized = true ∧
      (deserializeCellSpace
        (serializeCellSpace (runSetCellStates 0 [(⟨0, 0⟩, 1), (⟨1, 2⟩, 3)]))
        (CellSpace.init 5)).2.minGridBounds
        = (runSetCellStates 0 [(⟨0, 0⟩, 1), (⟨1, 2⟩, 3)]).minGridBounds ∧
      (deserializeCellSpace
        (serializeCellSpace (runSetCellStates 0 [(⟨0, 0⟩, 1), (⟨1, 2⟩, 3)]))
        (CellSpace.init 5)).2.maxGridBounds
        = (runSetCellStates 0 [(⟨0, 0⟩, 1), (⟨1, 2⟩, 3)]).maxGridBounds ∧
      cellFind (deserializeCellSpace
        (serializeCellSpace (runSetCellStates 0 [(⟨0, 0⟩, 1), (⟨1, 2⟩, 3)]))
        (CellSpace.init 5)).2.activeCells ⟨1, 2⟩
        = cellFind
            (runSetCellStates 0 [(⟨0, 0⟩, 1), (⟨1, 2⟩, 3)]).activeCells
            ⟨1, 2⟩) :=
  ⟨⟨by decide, by decide, by decide⟩,
    claim_C3 (runSetCellStates 0 [(⟨0, 0⟩, 1), (⟨1, 2⟩, 3)])
      (CellSpace.init 5) ⟨1, 2⟩ (by decide) (by decide) (by decide)
      (by decide) (by decide) (by decide) (by decide) (by decide)
      (by decide)⟩

/-- C5, counterexample: with a non-empty grid and a snapshot file whose
content decompresses fine to the 3-byte buffer `[1,1,1]` (too short for
even one bounds field), `loadState` returns `false` but the caller's
`CellSpace` is NOT left as it was: `deserializeCellSpace` has cleared it
(its active cell is gone). -/
theorem claim_C5_counterexample :
    (loadState (some (HuffmanCoding.compress (List.replicate 3 1)))
        (runSetCellStates 0 [(⟨0, 0⟩, 1)])).1 = false ∧
    (loadState (some (HuffmanCoding.compress (List.replicate 3 1)))
        (runSetCellStates 0 [(⟨0, 0⟩, 1)])).2.activeCells = [] ∧
    (runSetCellStates 0 [(⟨0, 0⟩, 1)]).activeCells ≠ [] ∧
    (loadState (some (HuffmanCoding.compress (List.replicate 3 1)))
        (runSetCellStates 0 [(⟨0, 0⟩, 1)])).2
      ≠ runSetCellStates 0 [(⟨0, 0⟩, 1)] := by
  have hdec : HuffmanCoding.decompress
      (HuffmanCoding.compress (List.replicate 3 1)) = List.replicate 3 1 :=
    HuffmanCoding.decompress_compress_replicate (by decide) (by decide)
      (by norm_num)
  have hload : loadState
      (some (HuffmanCoding.compress (List.replicate 3 1)))
      (runSetCellStates 0 [(⟨0, 0⟩, 1)])
      = deserializeCellSpace (List.replicate 3 1)
          (runSetCellStates 0 [(⟨0, 0⟩, 1)]) := by
    unfold loadState
    dsimp only
    rw [hdec]
    rw [if_neg (by intro h; revert h; decide)]
  rw [hload]
  refine ⟨by decide, by decide, by decide, by decide⟩

/-- C5 (amended): whenever `loadState` fails, the caller's `CellSpace` is
either left exactly as it was (file-read failure or the
decompression-failure check) or left fully cleared (any
deserialization-stage failure — `deserializeCellSpace` clears the target
before parsing and clears again on error); it is never left partially
modified, but it is NOT always unmodified. -/
theorem claim_C5_amended (fileContent : Option (List Nat)) (cs : CellSpace)
    (h : (loadState fileContent cs).1 = false) :
    (loadState fileContent cs).2 = cs ∨
      (loadState fileContent cs).2 = cs.clear := by
  cases fileContent with
  | none => exact Or.inl rfl
  | some compressedData =>
      unfold loadState at h ⊢
      dsimp only at h ⊢
      by_cases hcond : HuffmanCoding.decompress compressedData = [] ∧
          compressedData ≠ [] ∧ ¬(compressedData.length = 8 ∧
            readLEBytes (compressedData.take 8) = 0)
      · rw [if_pos hcond]
        exact Or.inl rfl
      · rw [if_neg hcond] at h ⊢
        unfold deserializeCellSpace at h ⊢
        dsimp only at h ⊢
        cases hp : parseSnapshot (HuffmanCoding.decompress compressedData)
        with
        | none => exact Or.inr rfl
        | some v =>
            rw [hp] at h
            obtain ⟨minB, maxB, cells⟩ := v
            simp at h

theorem claim_C5_amended_witness :
    (loadState none (CellSpace.init 0)).1 = false ∧
    ((loadState none (CellSpace.init 0)).2 = CellSpace.init 0 ∨
      (loadState none (CellSpace.init 0)).2 = (CellSpace.init 0).clear) :=
  ⟨rfl, claim_C5_amended none (CellSpace.init 0) rfl⟩

end SnapshotManager
